import Mathlib

/-!
# seq64: `SeqFile` (Source/SeqFile.hpp)

The header `SeqFile.hpp` declares the class that holds, imports and exports a Nintendo 64
Audioseq sequence. The only function whose body is in the header is the section comparator
`SeqFile::SectionSorter::compareElements`; it is embedded from the source in the first part
of this file. The bodies of `importCom`, `exportCom` and their helpers are not in the
header; the second part of the file models the disassembler and the assembler from the
specification (sections 4.2 and 4.3), with the external Instruction-Set Descriptor as a
parameter.

C++ `int` is modelled as `Int` reduced to the signed 32-bit range by `wrapInt32`; buffer
bytes, addresses and indices of the disassembler model are natural numbers.
-/

namespace SeqFile

/-! ## Part 1: the code of the header -/

/-- Reduction of an integer to the signed 32-bit range `[-2^31, 2^31)`, the value a C++
`int` holds after a conversion or an arithmetic operation that wraps modulo `2^32`. -/
def wrapInt32 (x : Int) : Int := (x + 2147483648) % 4294967296 - 2147483648

/-- The static `Identifier` table of `SeqFile` (SeqFile.hpp, "Identifiers"). -/
inductive Identifier where
  | idName | idCName | idOName | idCmd | idCmdEnd | idAction | idMeaning | idValue | idCC
  | idLength | idAddress | idAddressEnd | idDataSrc | idDataLen | idDataForce2 | idDataAddr
  | idDataActualLen | idSType | idValidInSeq | idValidInChn | idValidInTrk | idChannel
  | idLayer | idTSection | idSection | idSectionName | idOldSectionIdx | idSecDone | idTicks
  | idLabelName | idLabelNameAuto | idSrcCmdRef | idHash | idTargetSection | idTargetHash
  | idTargetCmdByte | idWillDrop | idDynTableSType | idDynTableDynSType | idMessage
  | idRecurVisited
  deriving DecidableEq, Repr

/-- A `ValueTree` node, as far as the comparator looks at it: its bag of named properties.
Property values are the integer-valued ones (addresses, lengths, indices). -/
structure ValueTree where
  properties : List (Identifier × Int)
  deriving DecidableEq, Repr

/-- The call `tree.getProperty(name, defaultReturnValue)`: the value stored under `name`, or
the default when the node has no such property. -/
def ValueTree.getProperty (tree : ValueTree) (name : Identifier) (defaultReturnValue : Int) :
    Int :=
  match tree.properties.find? (fun p => p.1 = name) with
  | some p => p.2
  | none => defaultReturnValue

/-- Whether the node has a property called `name`. -/
def ValueTree.hasProperty (tree : ValueTree) (name : Identifier) : Bool :=
  (tree.properties.find? (fun p => p.1 = name)).isSome

/-- What one call of `compareElements` does: whether its `jassert` fired, and the `int` it
returned. -/
structure CompareOutcome where
  assertionFired : Bool
  value : Int
  deriving DecidableEq, Repr

namespace SectionSorter

/-- The declaration `int one = first.getProperty(idAddress, -1);` (and likewise `two`): the
address property converted to `int`, `-1` when the section has none. -/
def readAddress (section_ : ValueTree) : Int :=
  wrapInt32 (section_.getProperty Identifier.idAddress (-1))

/-- The expression under `jassert`: `one != two && one >= 0 && two >= 0`. -/
def assertedCondition (one two : Int) : Bool :=
  one != two && decide (one ≥ 0) && decide (two ≥ 0)

/-- The JUCE macro `jassert(expression)`; it comes with `Common.hpp`, which is not part of
the header, so the build kind is a parameter: in a build with assertions enabled it fires
when the expression is false, in a build without them it expands to nothing. In both builds
control continues with the next statement. -/
def jassert (assertionsEnabled : Bool) (expression : Bool) : Bool :=
  assertionsEnabled && !expression

/-- The body of `SectionSorter::compareElements`:
```
int one = first.getProperty(idAddress, -1);
int two = second.getProperty(idAddress, -1);
jassert(one != two && one >= 0 && two >= 0);
return one - two;
```
The subtraction is 32-bit `int` arithmetic. -/
def compareElementsRun (assertionsEnabled : Bool) (first second : ValueTree) :
    CompareOutcome :=
  let one := readAddress first
  let two := readAddress second
  { assertionFired := jassert assertionsEnabled (assertedCondition one two)
    value := wrapInt32 (one - two) }

/-- The `int` returned by `SectionSorter::compareElements(first, second)`; it is the same in
every build. -/
def compareElements (first second : ValueTree) : Int :=
  (compareElementsRun false first second).value

end SectionSorter

/-- A section node that carries only an address property. -/
def sectionAt (address : Int) : ValueTree := { properties := [(Identifier.idAddress, address)] }

/-- A section node without an address property (it has a section type only). -/
def sectionNoAddress : ValueTree := { properties := [(Identifier.idSType, 2)] }

/-! ## Part 2: the disassembler and the assembler, modelled from the specification

`importCom` and the helpers it is declared with (`getDescription`, `getCommand`,
`checkRanIntoOtherSection`, `findTargetCommand`, `createSection`, `removeSection`,
`getSectionAndCmd`, ...) have no body in the header. The definitions below follow
section 4.2 of the specification, those of the assembler section 4.3. Where the
specification leaves a choice open, the choice made is stated in the definition's comment.
The three special decode shapes of the specification (dynamic tables, envelopes, messages)
have no described layout and are not part of the model. -/

/-- Modelled from the spec: the section kinds. The header only has the comment
"Stype: 0 seq hdr, 1 chn hdr, 2 track data"; the specification names the same three kinds
(sequence-header, channel-header, track-data). -/
inductive SType where
  | seqHdr | chnHdr | trackData
  deriving DecidableEq, Repr

/-- Modelled from the spec: "the action's addressing mode" of a reference field, which the
description `ValueTree` holds in a form the header does not show: the field is an absolute
address, or an offset relative to the address after the command. -/
inductive AddressingMode where
  | absolute | relative
  deriving DecidableEq, Repr

/-- Modelled from the spec: what the Instruction-Set Descriptor says about one command, the
missing part being the result of `getDescription`. It gives "the declared argument bytes",
whether the command is a terminator of its section, for a branch/call/reference command
the kind of the section it points at ("the appropriate kind inferred from the referencing
action"), and the addressing mode of its reference field. -/
structure CommandDescription where
  argBytes : Nat
  terminator : Bool
  targetSType : Option SType
  addressing : AddressingMode
  deriving DecidableEq, Repr

/-- Modelled from the spec: the Instruction-Set Descriptor, an external collaborator of the
disassembler and therefore a parameter. `getDescription firstbyte stype` is the declared
`getDescription(uint8_t firstbyte, int stype)`: the description of the command that starts
with this byte in a section of this kind, `none` for an unrecognized opcode. -/
structure Descriptor where
  getDescription : Nat → SType → Option CommandDescription

/-- Modelled from the spec: the value of a reference field, read by code of `getCommand`
that is missing: the argument bytes as one number, high byte first. -/
def fieldValue (args : List Nat) : Nat := args.foldl (fun acc b => acc * 256 + b) 0

/-- Modelled from the spec: the bytes of a reference field of `width` bytes that holds
`value`, high byte first; written by code of `writeCommand` that is missing. -/
def fieldBytes : Nat → Nat → List Nat
  | 0, _ => []
  | width + 1, value => fieldBytes width (value / 256) ++ [value % 256]

/-- Modelled from the spec: the candidate target address that the reference field `args`
of a command yields, computed by code of `getCommand` that is missing; `next` is the address
after the command. An absolute field is the address; a relative field is a signed offset
(two's complement over the width of the field) from `next`. There is no target (`none`)
when the offset leads before the start of the buffer. -/
def targetAddress (mode : AddressingMode) (args : List Nat) (next : Nat) : Option Nat :=
  match mode with
  | AddressingMode.absolute => some (fieldValue args)
  | AddressingMode.relative =>
    if 2 * fieldValue args < 256 ^ args.length then some (next + fieldValue args)
    else if 256 ^ args.length ≤ next + fieldValue args then
      some (next + fieldValue args - 256 ^ args.length)
    else none

/-- Modelled from the spec: `getPtrAddress`, whose body is missing: it "computes the correct
relative/absolute encoding given current write address and target". The result is the
reference field of `width` bytes of a command that ends before address `next` and points at
`target`; it is `none` at "an address or length overflow for the action's encoding". -/
def getPtrAddress (mode : AddressingMode) (width target next : Nat) : Option (List Nat) :=
  match mode with
  | AddressingMode.absolute =>
    if target < 256 ^ width then some (fieldBytes width target) else none
  | AddressingMode.relative =>
    if next ≤ target then
      if 2 * (target - next) < 256 ^ width then some (fieldBytes width (target - next))
      else none
    else if 2 * (next - target) ≤ 256 ^ width then
      some (fieldBytes width (256 ^ width - (next - target)))
    else none

/-- Modelled from the spec: a Command node of the graph, the missing part being the command
`ValueTree` that `getCommand` builds. It has its origin address, its first byte and argument
bytes, for a branch/call/reference command the candidate target (address and section kind),
and the resolved Reference (target section index, command index in that section) once
references are resolved. -/
structure Command where
  address : Nat
  firstByte : Nat
  args : List Nat
  ptr : Option (Nat × SType)
  ref : Option (Nat × Nat)
  deriving DecidableEq, Repr

/-- Modelled from the spec: the "byte length" attribute of a Command, whose computation is
missing: the first byte and the argument bytes. -/
def Command.length (c : Command) : Nat := 1 + c.args.length

/-- Modelled from the spec: a Section of the graph, "an ordered sequence of Commands of one
kind", with its address; the missing part is the section `ValueTree` built by
`createSection`. Its index is its position in the section list. -/
structure Section where
  stype : SType
  address : Nat
  commands : List Command
  deriving DecidableEq, Repr

/-- Modelled from the spec: the encoded length of a Section, whose computation is missing:
the number of bytes its commands occupy. -/
def Section.byteLength (s : Section) : Nat := (s.commands.map Command.length).sum

/-- Modelled from the spec: the "address-end" of a Section, whose computation is missing:
the address after its last command. -/
def Section.addressEnd (s : Section) : Nat := s.address + s.byteLength

/-- Modelled from the spec: the outcomes of `getCommand`, whose body is missing: an
unrecognized opcode, a command cut off by the end of the buffer, a reference field whose
value is out of range ("out-of-range argument"), or a command (with whether it is a
terminator). -/
inductive DecodeResult where
  | illegalOpcode
  | truncated
  | outOfRange
  | command (cmd : Command) (terminator : Bool)
  deriving Repr

/-- Modelled from the spec: `getCommand(data, address, stype)`, whose body is missing.
"Decoding a Command inspects the first byte, resolves the matching action via the Descriptor
for the current section kind, and consumes the declared argument bytes; unrecognized opcodes
return an error." A command whose first byte or argument bytes lie beyond the end of the
buffer cannot be decoded either (`truncated`), nor can a reference command whose field
yields no target address (`outOfRange`). -/
def getCommand (desc : Descriptor) (data : List Nat) (address : Nat) (stype : SType) :
    DecodeResult :=
  match data[address]? with
  | none => DecodeResult.truncated
  | some firstbyte =>
    match desc.getDescription firstbyte stype with
    | none => DecodeResult.illegalOpcode
    | some d =>
      if address + 1 + d.argBytes ≤ data.length then
        let args := (data.drop (address + 1)).take d.argBytes
        match d.targetSType with
        | none =>
          DecodeResult.command
            { address := address, firstByte := firstbyte, args := args, ptr := none,
              ref := none } d.terminator
        | some k =>
          match targetAddress d.addressing args (address + 1 + d.argBytes) with
          | none => DecodeResult.outOfRange
          | some t =>
            DecodeResult.command
              { address := address, firstByte := firstbyte, args := args, ptr := some (t, k),
                ref := none } d.terminator
      else DecodeResult.truncated

/-- Modelled from the spec: how the decoding of a section stopped, kept by code of
`importCom` that is missing: at a terminator, at a section boundary, or with one of the
three decode errors. -/
inductive SectionEnd where
  | terminator | boundary | illegalOpcode | truncated | outOfRange
  deriving DecidableEq, Repr

/-- Modelled from the spec: the endings that are decode errors (fatal for `importCom`, whose
body is missing). -/
def SectionEnd.isError : SectionEnd → Bool
  | SectionEnd.illegalOpcode => true
  | SectionEnd.truncated => true
  | SectionEnd.outOfRange => true
  | _ => false

/-- Modelled from the spec: the command loop of section decoding, whose code (in
`importCom`) is missing: "decode a Section by repeatedly decoding one Command at a time
(`getCommand`) until a terminator or section boundary is reached". `boundaries` are the start
addresses of the sections discovered so far. The first argument bounds the number of commands
by the number of bytes left; at `0` the address is at or beyond the end of the buffer, where
`getCommand` gives `truncated`. -/
def parseCommands (desc : Descriptor) (data : List Nat) (boundaries : List Nat) (stype : SType) :
    Nat → Nat → List Command × SectionEnd
  | 0, _ => ([], SectionEnd.truncated)
  | fuel + 1, address =>
    match getCommand desc data address stype with
    | DecodeResult.illegalOpcode => ([], SectionEnd.illegalOpcode)
    | DecodeResult.truncated => ([], SectionEnd.truncated)
    | DecodeResult.outOfRange => ([], SectionEnd.outOfRange)
    | DecodeResult.command cmd term =>
      if term then ([cmd], SectionEnd.terminator)
      else if (address + cmd.length) ∈ boundaries then ([cmd], SectionEnd.boundary)
      else
        let rest := parseCommands desc data boundaries stype fuel (address + cmd.length)
        (cmd :: rest.1, rest.2)

/-- Modelled from the spec: the creation of a section, the missing parts being
`createSection` and the decoding loop of `importCom`: "starting a brand-new Section at that
address with the appropriate kind", decoded to its end. The result has the section and how
its decoding stopped. -/
def parseSection (desc : Descriptor) (data : List Nat) (boundaries : List Nat) (stype : SType)
    (address : Nat) : Section × SectionEnd :=
  let parsed := parseCommands desc data boundaries stype (data.length - address) address
  ({ stype := stype, address := address, commands := parsed.1 }, parsed.2)

/-- Modelled from the spec: the inner search of `findTargetCommand`, whose body is missing:
the index of the command at address `tgt_addr` in a command list. -/
def findCommandAt (commands : List Command) (tgt_addr : Nat) : Option Nat :=
  commands.findIdx? (fun c => c.address == tgt_addr)

/-- Modelled from the spec: the search of `findTargetCommand`, whose body is missing,
through the sections from index `s` on. -/
def findTargetCommandFrom (tgt_addr : Nat) (tgt_stype : SType) :
    List Section → Nat → Option (Nat × Nat)
  | [], _ => none
  | sec :: rest, s =>
    if sec.stype = tgt_stype then
      match findCommandAt sec.commands tgt_addr with
      | some c => some (s, c)
      | none => findTargetCommandFrom tgt_addr tgt_stype rest (s + 1)
    else findTargetCommandFrom tgt_addr tgt_stype rest (s + 1)

/-- Modelled from the spec: `findTargetCommand`, whose body is missing (header: "0: not
found, 1: found"): the command of a section of the target kind that sits at the target
address; the result is the section index and the command index. -/
def findTargetCommand (sections : List Section) (tgt_addr : Nat) (tgt_stype : SType) :
    Option (Nat × Nat) :=
  findTargetCommandFrom tgt_addr tgt_stype sections 0

/-- Modelled from the spec: where a candidate target address lies among the sections
discovered so far, the three cases that the specification gives for
`checkRanIntoOtherSection` (whose body is missing). -/
inductive TargetPlace where
  | inside | between | free
  deriving DecidableEq, Repr

/-- Modelled from the spec: `checkRanIntoOtherSection`, whose body is missing; it
"determines whether that address lands inside an already-discovered section (legal jump -
add edge, no new section), strictly between two sections (a section-escape condition ...),
or requires starting a brand-new Section". An address is strictly between two sections when
it is inside none, one section ends at or before it and another one starts after it. -/
def checkRanIntoOtherSection (sections : List Section) (tgt_addr : Nat) : TargetPlace :=
  if sections.any (fun s => decide (s.address ≤ tgt_addr) && decide (tgt_addr < s.addressEnd))
  then TargetPlace.inside
  else if sections.any (fun s => decide (s.addressEnd ≤ tgt_addr))
    && sections.any (fun s => decide (tgt_addr < s.address))
  then TargetPlace.between
  else TargetPlace.free

/-- Modelled from the spec: an item of the worklist of the discovery, kept by code of
`importCom` that is missing: a known entry address to decode, the candidate target of a
branch/call/reference command to visit, or the mark that ends the visits made from inside a
section (the section leaves the active call stack). -/
inductive WorkItem where
  | entry (address : Nat) (stype : SType)
  | target (address : Nat) (stype : SType)
  | leave (address : Nat) (stype : SType)
  deriving DecidableEq, Repr

/-- Modelled from the spec: the state of the discovery, which `importCom` keeps in members
and locals that the header does not show. It has the sections discovered so far with, for
each, how its decoding stopped; the traversal-scoped visited set "keyed by (address,
section-kind)"; the active call stack (the sections "currently being parsed"); whether a
work item outside the buffer was met; whether a pair was visited "while still on the active
call stack" (structural error); whether a section-escape error was met; whether a loop
closure was met; and whether the worklist was exhausted. -/
structure Discovery where
  sections : List Section
  ends : List SectionEnd
  visited : List (Nat × SType)
  active : List (Nat × SType)
  outside : Bool
  recursion : Bool
  escape : Bool
  loopClosure : Bool
  complete : Bool
  deriving Repr

/-- Modelled from the spec: the work items for the references that a section holds in
commands other than its terminator, collected by code of `importCom` that is missing. The
decoding of the section goes on after such a command, so its target is visited while the
section is "currently being parsed". -/
def innerTargets (parsed : Section × SectionEnd) : List WorkItem :=
  ((if parsed.2 = SectionEnd.terminator then parsed.1.commands.dropLast
    else parsed.1.commands).filterMap Command.ptr).map (fun t => WorkItem.target t.1 t.2)

/-- Modelled from the spec: the work item for the reference that the terminator of a section
holds (a jump that ends the section), collected by code of `importCom` that is missing. The
section is "already fully parsed" when this target is visited. -/
def finalTarget (parsed : Section × SectionEnd) : List WorkItem :=
  if parsed.2 = SectionEnd.terminator then
    match parsed.1.commands.getLast?.bind Command.ptr with
    | some t => [WorkItem.target t.1 t.2]
    | none => []
  else []

/-- Modelled from the spec: the start of a new section in the discovery, the missing parts
being `createSection` and code of `importCom`: the section is decoded to its end, its pair
is marked visited and enters the active call stack; the targets of its inner references are
visited first, then the section leaves the active call stack, then the target of its
terminator is visited. -/
def startSection (desc : Descriptor) (data : List Nat) (st : Discovery) (addr : Nat)
    (stype : SType) : List WorkItem × Discovery :=
  let parsed := parseSection desc data (st.sections.map Section.address) stype addr
  (innerTargets parsed ++ WorkItem.leave addr stype :: finalTarget parsed,
    { st with
      sections := st.sections ++ [parsed.1]
      ends := st.ends ++ [parsed.2]
      visited := (addr, stype) :: st.visited
      active := (addr, stype) :: st.active })

/-- Modelled from the spec: one step of the "worklist-driven graph discovery" of
`importCom`, whose body is missing; the result has the new work items and the new state.
A known entry is decoded unless it is visited already ("for each entry address not yet
visited, decode a Section"). For the candidate target of a reference the recursion guard
comes first: a pair on the active call stack is "a structural error (self-referential
malformed stream)", a pair that is marked visited and not active "terminates that branch
without error (loop closure)", which is a warning ("recoverable loop closures"). An address
outside the buffer has nothing to decode (error). Then `checkRanIntoOtherSection` decides:
inside a discovered section the target is a "legal jump" and starts no section; strictly
between two sections it is a section-escape error "unless the target is a recognized new
entry"; otherwise a new section starts. -/
def discoverStep (desc : Descriptor) (data : List Nat) (entries : List (Nat × SType))
    (st : Discovery) : WorkItem → List WorkItem × Discovery
  | WorkItem.leave addr stype => ([], { st with active := st.active.erase (addr, stype) })
  | WorkItem.entry addr stype =>
    if (addr, stype) ∈ st.visited then ([], st)
    else if data.length ≤ addr then ([], { st with outside := true })
    else startSection desc data st addr stype
  | WorkItem.target addr stype =>
    if (addr, stype) ∈ st.active then ([], { st with recursion := true })
    else if (addr, stype) ∈ st.visited then ([], { st with loopClosure := true })
    else if data.length ≤ addr then ([], { st with outside := true })
    else
      match checkRanIntoOtherSection st.sections addr with
      | TargetPlace.inside => ([], st)
      | TargetPlace.between =>
        if (addr, stype) ∈ entries then startSection desc data st addr stype
        else ([], { st with escape := true })
      | TargetPlace.free => startSection desc data st addr stype

/-- Modelled from the spec: the loop of the discovery of `importCom`, whose body is missing:
one work item is taken at a time, and the items it gives rise to are worked off before the
items that were waiting. The first argument bounds the number of steps. -/
def discoverLoop (desc : Descriptor) (data : List Nat) (entries : List (Nat × SType)) :
    Nat → List WorkItem → Discovery → Discovery
  | _, [], st => { st with complete := true }
  | 0, _ :: _, st => st
  | fuel + 1, item :: rest, st =>
    discoverLoop desc data entries fuel
      ((discoverStep desc data entries st item).1 ++ rest)
      (discoverStep desc data entries st item).2

/-- Modelled from the spec: the state in which the discovery of `importCom` (body missing)
starts: nothing discovered, nothing visited. -/
def initialDiscovery : Discovery :=
  { sections := [], ends := [], visited := [], active := [], outside := false,
    recursion := false, escape := false, loopClosure := false, complete := false }

/-- Modelled from the spec: the worklist with which the discovery of `importCom` (body
missing) starts: the known entry addresses. -/
def entryItems (entries : List (Nat × SType)) : List WorkItem :=
  entries.map (fun e => WorkItem.entry e.1 e.2)

/-- The step bound given to the discovery of the model: it depends on the buffer length and
the number of entries only, and `discover_complete` shows that it is never reached. -/
def discoverFuel (data : List Nat) (entries : List (Nat × SType)) : Nat :=
  3 * data.length * (data.length + 1) + entries.length + 1

/-- Modelled from the spec: the discovery phase of `importCom` from "a set of known entry
addresses (sequence header, per-channel headers)". -/
def discover (desc : Descriptor) (data : List Nat) (entries : List (Nat × SType)) : Discovery :=
  discoverLoop desc data entries (discoverFuel data entries) (entryItems entries)
    initialDiscovery

/-- Modelled from the spec: the ordering of the discovered sections, done by code of
`importCom` that is missing; the header declares the comparator `SectionSorter` with the
helpers of `importCom`. The sections are put in ascending address order, the order that
`SectionSorter::compareElements` defines on non-negative `int` addresses. -/
def sortSections (sections : List Section) : List Section :=
  sections.insertionSort (fun a b => a.address ≤ b.address)

/-- Modelled from the spec: the Reference of one command, set by code of `importCom` that is
missing: its candidate target looked up among the sections. -/
def resolveCommand (sections : List Section) (cmd : Command) : Command :=
  { cmd with ref := cmd.ptr.bind (fun t => findTargetCommand sections t.1 t.2) }

/-- Modelled from the spec: the edges of the graph, set by code of `importCom` that is
missing: every branch/call/reference command gets the Reference ("target Section + offset")
that its candidate target resolves to. -/
def resolveReferences (sections : List Section) : List Section :=
  sections.map (fun sec => { sec with commands := sec.commands.map (resolveCommand sections) })

/-- Modelled from the spec: `getSectionAndCmd(command, s, c)`, whose body is missing: the
section index and command index that the command's Reference denotes, when that section and
command are present in the graph. -/
def getSectionAndCmd (sections : List Section) (command : Command) : Option (Nat × Nat) :=
  match command.ref with
  | none => none
  | some r =>
    match sections[r.1]? with
    | none => none
    | some sec => if r.2 < sec.commands.length then some r else none

/-- Modelled from the spec: the check of `importCom` (body missing) for an "unresolved
reference": whether some branch/call/reference command has a Reference that does not
resolve. -/
def hasUnresolved (sections : List Section) : Bool :=
  sections.any (fun sec =>
    sec.commands.any (fun cmd => cmd.ptr.isSome && (getSectionAndCmd sections cmd).isNone))

/-- Modelled from the spec: whether the byte ranges of two sections intersect; the check is
in code of `importCom` that is missing. -/
def overlaps (a b : Section) : Bool :=
  decide (a.address < b.addressEnd) && decide (b.address < a.addressEnd)

/-- Modelled from the spec: the check of `importCom` (body missing) for "overlapping
sections": whether two sections of the list overlap. -/
def hasOverlap : List Section → Bool
  | [] => false
  | sec :: rest => rest.any (overlaps sec) || hasOverlap rest

/-- Modelled from the spec: the check of `importCom` (body missing) for unreachable bytes
("dead bytes"): whether some byte of the buffer belongs to no section. -/
def hasDeadBytes (data : List Nat) (sections : List Section) : Bool :=
  (List.range data.length).any (fun p =>
    !(sections.any (fun sec => decide (sec.address ≤ p) && decide (p < sec.addressEnd))))

/-- Modelled from the spec: the Content Hash of a section, whose computation is missing:
the "structural fingerprint of a Section". The fingerprint is taken to be exact: it is the
sequence of first bytes and argument bytes of the commands, so that sections have the same
hash exactly when they are structurally identical. -/
def Section.contentHash (s : Section) : List (Nat × List Nat) :=
  s.commands.map (fun c => (c.firstByte, c.args))

/-- Modelled from the spec: the test of the deduplication of `importCom` (body missing):
"identical content hash and identical section kind". -/
def sameContent (a b : Section) : Bool :=
  decide (a.stype = b.stype) && decide (a.contentHash = b.contentHash)

/-- Modelled from the spec: the retargeting done by `removeSection`, whose body is missing;
the new value of a Reference when section `remove` is removed in favour of section
`replace`: a Reference to the removed section goes to the retained one, and the indices of
the sections after the removed one move down by one. -/
def retarget (remove replace : Nat) (r : Nat × Nat) : Nat × Nat :=
  if r.1 = remove then (replace, r.2)
  else if remove < r.1 then (r.1 - 1, r.2)
  else r

/-- Modelled from the spec: the retargeting done by `removeSection`, whose body is missing,
for all References held by the commands of one section. -/
def retargetSection (remove replace : Nat) (sec : Section) : Section :=
  { sec with commands := sec.commands.map (fun c =>
      { c with ref := c.ref.map (retarget remove replace) }) }

/-- Modelled from the spec: `removeSection(remove, replace, ...)`, whose body is missing:
the section at index `remove` is deleted and "all references to the removed duplicate are
retargeted to the retained section". The result has the new section list and the index of
the retained section after the removal (`replace` is passed by reference); it is `none` when
an index is out of range or the two are equal. -/
def removeSection (sections : List Section) (remove replace : Nat) :
    Option (List Section × Nat) :=
  if remove < sections.length ∧ replace < sections.length ∧ remove ≠ replace then
    let replace' := if remove < replace then replace - 1 else replace
    some ((sections.eraseIdx remove).map (retargetSection remove replace'), replace')
  else none

/-- Modelled from the spec: the search for a duplicate in the deduplication of `importCom`
(body missing): the first section that has the same kind and content hash as a section
before it, with the first such earlier section. -/
def findDuplicateFrom : List Section → List Section → Option (Nat × Nat)
  | _, [] => none
  | earlier, sec :: rest =>
    match earlier.findIdx? (fun e => sameContent e sec) with
    | some i => some (i, earlier.length)
    | none => findDuplicateFrom (earlier ++ [sec]) rest

/-- Modelled from the spec: the pair (retained index, duplicate index) of the first
duplicate, if there is one; part of the deduplication of `importCom` (body missing). -/
def findDuplicate (sections : List Section) : Option (Nat × Nat) :=
  findDuplicateFrom [] sections

/-- Modelled from the spec: the loop of the deduplication of `importCom` (body missing): as
long as a duplicate is found, it is removed in favour of the earlier section. Every round
removes a section, so the number of sections bounds the number of rounds. -/
def dedupLoop : Nat → List Section → List Section
  | 0, sections => sections
  | fuel + 1, sections =>
    match findDuplicate sections with
    | none => sections
    | some (retained, duplicate) =>
      match removeSection sections duplicate retained with
      | none => sections
      | some (sections', _) => dedupLoop fuel sections'

/-- Modelled from the spec: the deduplication pass of `importCom`, whose body is missing:
"after full discovery, sections with identical content hash and identical section kind are
merged". -/
def dedup (sections : List Section) : List Section := dedupLoop sections.length sections

/-- Modelled from the spec: the graph that `importCom` (body missing) has after the
discovery, the ordering and the resolution of references, before the deduplication. -/
abbrev discoveredGraph (desc : Descriptor) (data : List Nat) (entries : List (Nat × SType)) :
    List Section :=
  resolveReferences (sortSections (discover desc data entries).sections)

/-- Modelled from the spec: the result of `importCom`, whose body is missing: the result
code (`importresult`) and the graph (`structure`), "`importCom(bytes) -> (resultCode,
graph)`". -/
structure ImportResult where
  code : Nat
  sections : List Section
  deriving Repr

/-- Modelled from the spec: `importCom`, whose body is missing. The phases are the
discovery, the ordering of the sections by address, the resolution of references and the
deduplication. The result code is "0 = clean, 1 = decoded with warnings (e.g. unreachable
trailing bytes, recoverable irregularities), >= 2 = fatal structural error (unresolved
reference, illegal opcode, overlapping sections)". Fatal are a decode error of a section
(illegal opcode, command cut off by the end of the buffer, out-of-range reference field), a
work item outside the buffer, a visit of a pair on the active call stack, a section escape,
an unresolved reference and overlapping sections; warnings are "dead bytes" and "recoverable
loop closures". The call "aggregates the worst status seen", and every phase runs also after
an error. -/
def importCom (desc : Descriptor) (data : List Nat) (entries : List (Nat × SType)) :
    ImportResult :=
  let disc := discover desc data entries
  let graph := discoveredGraph desc data entries
  let fatal := !disc.complete || disc.ends.any SectionEnd.isError || disc.outside
    || disc.recursion || disc.escape || hasUnresolved graph || hasOverlap graph
  let warning := disc.loopClosure || hasDeadBytes data graph
  { code := if fatal then 2 else if warning then 1 else 0
    sections := dedup graph }

/-! ### The assembler -/

/-- Modelled from the spec: the bytes of a command that holds no reference, as
`writeCommand` (body missing) writes them: the first byte and the argument bytes. -/
def Command.rawBytes (c : Command) : List Nat := c.firstByte :: c.args

/-- Modelled from the spec: the offset of a command in its placed section, computed by code
of `exportCom` that is missing: the number of bytes of the commands before it. -/
def commandOffset (sec : Section) (c : Nat) : Nat :=
  ((sec.commands.take c).map Command.length).sum

/-- Modelled from the spec: the first pass of `exportCom`, whose body is missing: "assign
each section a provisional address by accumulating prior sections' encoded lengths". -/
def sectionBase (sections : List Section) (s : Nat) : Nat :=
  ((sections.take s).map Section.byteLength).sum

/-- Modelled from the spec: the address at which the command that a Reference denotes is
placed, computed by code of `exportCom` that is missing. -/
def placedAddress (sections : List Section) (r : Nat × Nat) : Nat :=
  sectionBase sections r.1 +
    match sections[r.1]? with
    | some sec => commandOffset sec r.2
    | none => 0

/-- Modelled from the spec: `writeCommand(data, address, command)`, whose body is missing,
for a command of a section of kind `stype`: "encode every Command via its Descriptor-defined
binary rule, writing reference fields as relative or absolute offsets per the action's
addressing mode", from the placed address of the target. The result has the bytes and
whether the command could be written; a command whose reference does not resolve, or whose
reference field overflows (no wider encoding is modelled), is written with its old argument
bytes and reported. -/
def writeCommand (desc : Descriptor) (sections : List Section) (stype : SType) (address : Nat)
    (command : Command) : List Nat × Bool :=
  match command.ptr with
  | none => (command.firstByte :: command.args, true)
  | some _ =>
    match getSectionAndCmd sections command, desc.getDescription command.firstByte stype with
    | some r, some d =>
      match getPtrAddress d.addressing command.args.length (placedAddress sections r)
          (address + command.length) with
      | some field => (command.firstByte :: field, true)
      | none => (command.firstByte :: command.args, false)
    | _, _ => (command.firstByte :: command.args, false)

/-- Modelled from the spec: the commands of one section written one after the other from
`address` on, by code of `exportCom` that is missing. -/
def writeCommands (desc : Descriptor) (sections : List Section) (stype : SType) :
    Nat → List Command → List Nat × Bool
  | _, [] => ([], true)
  | address, cmd :: rest =>
    let w := writeCommand desc sections stype address cmd
    let ws := writeCommands desc sections stype (address + cmd.length) rest
    (w.1 ++ ws.1, w.2 && ws.2)

/-- Modelled from the spec: the second pass of `exportCom`, whose body is missing: the
sections are written in the order of the graph, each at the address after the one before
it. -/
def writeSections (desc : Descriptor) (sections : List Section) :
    Nat → List Section → List Nat × Bool
  | _, [] => ([], true)
  | address, sec :: rest =>
    let w := writeCommands desc sections sec.stype address sec.commands
    let ws := writeSections desc sections (address + sec.byteLength) rest
    (w.1 ++ ws.1, w.2 && ws.2)

/-- Modelled from the spec: the result of `exportCom`, whose body is missing: the result
code and the buffer, "`exportCom(graph) -> (resultCode, bytes)`". -/
structure ExportResult where
  code : Nat
  data : List Nat
  deriving DecidableEq, Repr

/-- Modelled from the spec: `exportCom`, whose body is missing: the graph is linearized in
two passes, "addresses of all sections known before command bytes referencing later sections
are finalized"; an unresolved reference and an overflow of a reference field are fatal. -/
def exportCom (desc : Descriptor) (sections : List Section) : ExportResult :=
  let w := writeSections desc sections 0 sections
  { code := if w.2 then 0 else 2, data := w.1 }

/-! ## Definitions used to state and prove the claims -/

/-- All (address, section kind) pairs of a buffer of length `n`. -/
def allPairs (n : Nat) : List (Nat × SType) :=
  (List.range n).flatMap (fun a => [(a, SType.seqHdr), (a, SType.chnHdr), (a, SType.trackData)])

/-- The number of pairs of the buffer that are not yet visited: the measure that bounds the
discovery. -/
def unvisitedCount (n : Nat) (visited : List (Nat × SType)) : Nat :=
  ((allPairs n).filter (fun p => decide (p ∉ visited))).length

/-- The measure of a configuration of the discovery: every start of a section uses up one
unvisited pair and adds at most as many work items as the buffer has bytes. -/
def discoverMeasure (data : List Nat) (work : List WorkItem) (st : Discovery) : Nat :=
  unvisitedCount data.length st.visited * (data.length + 1) + work.length

/-- The pair of a work item that is a `leave` mark. -/
def WorkItem.leavePair : WorkItem → Option (Nat × SType)
  | WorkItem.leave addr stype => some (addr, stype)
  | _ => none

/-- From address `a` on the buffer holds `n` commands that are legal in a section of kind
`stype` and are no terminators, one after the other, and the last of them ends before
address `b`. -/
def LegalRun (desc : Descriptor) (data : List Nat) (stype : SType) : Nat → Nat → Nat → Prop
  | 0, a, b => a = b
  | n + 1, a, b =>
    ∃ firstbyte d, data[a]? = some firstbyte ∧
      desc.getDescription firstbyte stype = some d ∧ d.terminator = false ∧
      LegalRun desc data stype n (a + 1 + d.argBytes) b

/-- A section holds a call of itself: a command that is no terminator and whose target is
the start of the section. -/
def HasSelfCall (desc : Descriptor) (sec : Section) : Prop :=
  ∃ cmd ∈ sec.commands, ∃ d, desc.getDescription cmd.firstByte sec.stype = some d ∧
    d.terminator = false ∧ cmd.ptr = some (sec.address, sec.stype)

/-- The target of a call of the section itself is still waiting in the worklist, before the
mark at which the section leaves the active call stack. -/
def SelfCallPending (work : List WorkItem) (sec : Section) : Prop :=
  ∃ pre post, work = pre ++ WorkItem.target sec.address sec.stype :: post ∧
    WorkItem.leave sec.address sec.stype ∈ post

/-- The configurations of the discovery keep the `leave` marks of the worklist equal to the
active call stack, and, unless a visit on the active call stack was met, the target of every
call of a section to itself waiting before the `leave` mark of that section. -/
def SelfCallInvariant (desc : Descriptor) (work : List WorkItem) (st : Discovery) : Prop :=
  work.filterMap WorkItem.leavePair = st.active ∧
  (st.recursion = true ∨
    ∀ sec ∈ st.sections, HasSelfCall desc sec → SelfCallPending work sec)

/-- A Reference is valid in a graph when its section and its command exist. -/
def RefValid (sections : List Section) (r : Nat × Nat) : Prop :=
  ∃ sec, sections[r.1]? = some sec ∧ r.2 < sec.commands.length

/-- Every branch/call/reference command of the graph resolves. -/
def AllResolved (sections : List Section) : Prop :=
  ∀ sec ∈ sections, ∀ cmd ∈ sec.commands, cmd.ptr.isSome = true →
    (getSectionAndCmd sections cmd).isSome = true

/-- The kind and content hash of a section: what the deduplication compares. -/
abbrev SectionKey := SType × List (Nat × List Nat)

/-- The key of a section. -/
def Section.key (s : Section) : SectionKey := (s.stype, s.contentHash)

/-- The key of the section at index `s`, if there is one. -/
def keyAt (sections : List Section) (s : Nat) : Option SectionKey :=
  sections[s]?.map Section.key

/-- The Reference of a command as seen from outside: the key of the section it points at and
the command index in that section. -/
def referenceView (sections : List Section) (cmd : Command) : Option (Option SectionKey × Nat) :=
  cmd.ref.map (fun r => (keyAt sections r.1, r.2))

/-- The graph as seen from outside, independent of section indices: for every section its
key and, for every command, the view of its Reference. -/
def graphView (sections : List Section) :
    List (SectionKey × List (Option (Option SectionKey × Nat))) :=
  sections.map (fun sec => (sec.key, sec.commands.map (referenceView sections)))

/-- The entries whose key has not occurred before (nor is in `seen`), in order. -/
def keepFirst {α : Type} : List SectionKey → List (SectionKey × α) → List (SectionKey × α)
  | _, [] => []
  | seen, e :: rest =>
    if e.1 ∈ seen then keepFirst seen rest else e :: keepFirst (e.1 :: seen) rest

/-- The commands `cmds` are what decoding the buffer from `addr` on gives: they follow one
another without gap, their bytes are the bytes of the buffer, and the candidate target of a
reference command is the one its reference field yields under the description of the
command. -/
def Decoded (desc : Descriptor) (data : List Nat) (stype : SType) : Nat → List Command → Prop
  | _, [] => True
  | addr, cmd :: rest =>
    cmd.address = addr ∧ addr + cmd.length ≤ data.length ∧
    (data.drop addr).take cmd.length = cmd.rawBytes ∧
    (∀ t, cmd.ptr = some t →
      ∃ d, desc.getDescription cmd.firstByte stype = some d ∧ d.targetSType = some t.2 ∧
        targetAddress d.addressing cmd.args (addr + cmd.length) = some t.1) ∧
    Decoded desc data stype (addr + cmd.length) rest

/-- The sections `l` tile the buffer from `pos` on: they are in address order, do not
overlap, are decoded from the buffer, cover every byte from `pos` on, and none of them
starts before `pos`. -/
def Tiles (desc : Descriptor) (data : List Nat) (pos : Nat) (l : List Section) : Prop :=
  l.Pairwise (fun a b => a.address ≤ b.address) ∧
  l.Pairwise (fun a b => overlaps a b = false) ∧
  (∀ sec ∈ l, sec.address < data.length ∧
    Decoded desc data sec.stype sec.address sec.commands) ∧
  (∀ p, pos ≤ p → p < data.length →
    ∃ sec ∈ l, sec.address ≤ p ∧ p < sec.addressEnd) ∧
  (∀ sec ∈ l, 0 < sec.byteLength → pos ≤ sec.address) ∧
  pos ≤ data.length

/-- The description of a command that holds no reference. -/
def plainCommand (argBytes : Nat) (terminator : Bool) : CommandDescription :=
  { argBytes := argBytes, terminator := terminator, targetSType := none,
    addressing := AddressingMode.absolute }

/-- A small sample descriptor for the examples: `0xFF` ends a section; `0xFB` is a jump
(two address bytes, absolute) that ends the section, `0xF4` a jump with a one-byte relative
offset that ends the section, and `0xFC` a call (two address bytes, absolute), all three to
a section of the same kind; in a sequence header `0x90` points at a channel header and
`0xDD` takes one argument; in a channel header `0x88` points at track data and `0xC1` takes
one argument; in track data `0x90` is a note-on with one argument (the pitch) and the bytes
below `0x80` are notes with two arguments. Absolute addresses have the high byte first. -/
def exampleDescriptor : Descriptor where
  getDescription firstbyte stype :=
    if firstbyte = 255 then some (plainCommand 0 true)
    else if firstbyte = 251 then
      some { argBytes := 2, terminator := true, targetSType := some stype,
             addressing := AddressingMode.absolute }
    else if firstbyte = 244 then
      some { argBytes := 1, terminator := true, targetSType := some stype,
             addressing := AddressingMode.relative }
    else if firstbyte = 252 then
      some { argBytes := 2, terminator := false, targetSType := some stype,
             addressing := AddressingMode.absolute }
    else match stype with
      | SType.seqHdr =>
        if firstbyte = 144 then
          some { argBytes := 2, terminator := false, targetSType := some SType.chnHdr,
                 addressing := AddressingMode.absolute }
        else if firstbyte = 221 then some (plainCommand 1 false)
        else none
      | SType.chnHdr =>
        if firstbyte = 136 then
          some { argBytes := 2, terminator := false, targetSType := some SType.trackData,
                 addressing := AddressingMode.absolute }
        else if firstbyte = 193 then some (plainCommand 1 false)
        else none
      | SType.trackData =>
        if firstbyte = 144 then some (plainCommand 1 false)
        else if firstbyte < 128 then some (plainCommand 2 false)
        else none

/-- A sequence header that sets one value and jumps back to its own start. -/
def selfLoopData : List Nat := [221, 120, 251, 0, 0]

/-- A sequence header that sets one value and jumps back to its own start with a relative
jump (offset `-4` from the address after the jump). -/
def relativeLoopData : List Nat := [221, 120, 244, 252]

/-- A sequence header that calls its own start and then ends. -/
def selfCallData : List Nat := [252, 0, 0, 255]

/-- A sequence header whose second command is followed by a byte that is no opcode. -/
def illegalOpcodeData : List Nat := [221, 5, 221, 6, 254, 255]

/-- The sequence header that the discovery finds in `illegalOpcodeData`: the two commands
before the illegal opcode. -/
def illegalOpcodeSection : Section :=
  { stype := SType.seqHdr, address := 0,
    commands :=
      [{ address := 0, firstByte := 221, args := [5], ptr := none, ref := none },
       { address := 2, firstByte := 221, args := [6], ptr := none, ref := none }] }

/-- A sequence header, a channel header, and two identical track sections at addresses 11
and 15, both referenced from the channel header. -/
def sharedTrackData : List Nat :=
  [144, 0, 4, 255, 136, 0, 11, 136, 0, 15, 255, 60, 100, 48, 255, 60, 100, 48, 255]

/-- A buffer like `sharedTrackData`, with two track sections that differ. -/
def twoTrackData : List Nat :=
  [144, 0, 4, 255, 136, 0, 11, 136, 0, 15, 255, 60, 100, 48, 255, 62, 100, 48, 255]

/-- A sequence header that points at a channel header; the channel header sets one value
and goes on with a relative jump (offset 0) to a second channel header, which points at a
track section. -/
def relativeJumpData : List Nat :=
  [144, 0, 4, 255, 193, 5, 244, 0, 136, 0, 12, 255, 60, 100, 48, 255]

/-- The second pointer command of the channel header of `sharedTrackData`, as the graph
returned for that buffer has it. -/
def sharedTrackCommand : Command :=
  { address := 7, firstByte := 136, args := [0, 15], ptr := some (15, SType.trackData),
    ref := some (2, 0) }

/-- The channel header of `sharedTrackData`, as the graph returned for that buffer has
it. -/
def sharedTrackChannel : Section :=
  { stype := SType.chnHdr, address := 4,
    commands :=
      [{ address := 4, firstByte := 136, args := [0, 11], ptr := some (11, SType.trackData),
         ref := some (2, 0) },
       sharedTrackCommand,
       { address := 10, firstByte := 255, args := [], ptr := none, ref := none }] }

/-- A sequence header whose call at address 0 points into the argument byte of its second
command: the target is inside the header, but at no command. -/
def intoCommandData : List Nat := [252, 0, 4, 221, 255, 255]

/-- A sequence header at address 0 and two track sections given as entries, at addresses 3
and 1; the note at address 1 reaches over the start of the section at address 3. -/
def straddleData : List Nat := [255, 10, 20, 255, 255]

/-- The entries of `straddleData`. -/
def straddleEntries : List (Nat × SType) :=
  [(0, SType.seqHdr), (3, SType.trackData), (1, SType.trackData)]

/-- A sequence header that calls a section at address 9 and then one at address 7, which
lies between the header and the section at address 9. -/
def escapeData : List Nat := [252, 0, 9, 252, 0, 7, 255, 255, 255, 255]

/-- A sequence header that ends at address 0 and is followed by a byte that nothing
reaches. -/
def deadByteData : List Nat := [255, 7]

/-- The scenario of the specification: a channel header at address `0x00` that holds a
single reference, to address `0x10`, and a 3-byte section (a note-on on channel 0 with
pitch 60, and the end) at address `0x10`. The channel header sets six values before the
reference and ends after it, so that it takes up the 16 bytes before the section. -/
def scenarioData : List Nat :=
  [193, 1, 193, 2, 193, 3, 193, 4, 193, 5, 193, 6, 136, 0, 16, 255, 144, 60, 255]

/-- A buffer like `scenarioData` whose channel header holds only the reference and the end:
the twelve bytes between the header and the section at address `0x10` are reached by
nothing. -/
def scenarioGapData : List Nat :=
  [136, 0, 16, 255, 0, 0, 0, 0, 0, 0, 0, 0, 0, 0, 0, 0, 144, 60, 255]

/-- The second track section of `sharedTrackData`, as the discovery finds it. -/
def sharedTrackDuplicate : Section :=
  { stype := SType.trackData, address := 15,
    commands :=
      [{ address := 15, firstByte := 60, args := [100, 48], ptr := none, ref := none },
       { address := 18, firstByte := 255, args := [], ptr := none, ref := none }] }

/-- The call of `intoCommandData`, as the discovery decodes it. -/
def intoCommandCall : Command :=
  { address := 0, firstByte := 252, args := [0, 4], ptr := some (4, SType.seqHdr),
    ref := none }

/-- The sequence header that the discovery finds in `intoCommandData`. -/
def intoCommandSection : Section :=
  { stype := SType.seqHdr, address := 0,
    commands :=
      [intoCommandCall,
       { address := 3, firstByte := 221, args := [255], ptr := none, ref := none },
       { address := 5, firstByte := 255, args := [], ptr := none, ref := none }] }

/-- The call of `selfCallData`, as the discovery decodes it. -/
def selfCallCommand : Command :=
  { address := 0, firstByte := 252, args := [0, 0], ptr := some (0, SType.seqHdr),
    ref := none }

/-- The sequence header that the discovery finds in `selfCallData`. -/
def selfCallSection : Section :=
  { stype := SType.seqHdr, address := 0,
    commands :=
      [selfCallCommand,
       { address := 3, firstByte := 255, args := [], ptr := none, ref := none }] }

/-- The track section at address 3 of `straddleData`, as the discovery finds it. -/
def straddleFirst : Section :=
  { stype := SType.trackData, address := 3,
    commands := [{ address := 3, firstByte := 255, args := [], ptr := none, ref := none }] }

/-- The track section at address 1 of `straddleData`, as the discovery finds it: its note
takes up the addresses 1 to 3. -/
def straddleSecond : Section :=
  { stype := SType.trackData, address := 1,
    commands :=
      [{ address := 1, firstByte := 10, args := [20, 255], ptr := none, ref := none },
       { address := 4, firstByte := 255, args := [], ptr := none, ref := none }] }

/-! # Theorems -/

/-! ## Basic facts about 32-bit wrapping and the address read -/

theorem wrapInt32_of_inRange (x : Int) (h1 : -2147483648 ≤ x) (h2 : x < 2147483648) :
    wrapInt32 x = x := by
  unfold wrapInt32
  omega

theorem wrapInt32_lower (x : Int) : -2147483648 ≤ wrapInt32 x := by
  unfold wrapInt32
  omega

theorem wrapInt32_upper (x : Int) : wrapInt32 x < 2147483648 := by
  unfold wrapInt32
  omega

theorem readAddress_lower (s : ValueTree) : -2147483648 ≤ SectionSorter.readAddress s :=
  wrapInt32_lower _

theorem readAddress_upper (s : ValueTree) : SectionSorter.readAddress s < 2147483648 :=
  wrapInt32_upper _

theorem compareElements_eq (first second : ValueTree) :
    SectionSorter.compareElements first second
      = wrapInt32 (SectionSorter.readAddress first - SectionSorter.readAddress second) := rfl

theorem compareElementsRun_value (dbg : Bool) (first second : ValueTree) :
    (SectionSorter.compareElementsRun dbg first second).value
      = SectionSorter.compareElements first second := rfl

theorem readAddress_of_no_property (s : ValueTree)
    (h : s.hasProperty Identifier.idAddress = false) : SectionSorter.readAddress s = -1 := by
  unfold ValueTree.hasProperty at h
  unfold SectionSorter.readAddress ValueTree.getProperty
  cases hf : s.properties.find? (fun p => p.1 = Identifier.idAddress) with
  | none => simp [wrapInt32]
  | some p => simp [hf] at h

/-- With both addresses non-negative the 32-bit subtraction does not overflow. -/
theorem compareElements_exact (first second : ValueTree)
    (h1 : 0 ≤ SectionSorter.readAddress first) (h2 : 0 ≤ SectionSorter.readAddress second) :
    SectionSorter.compareElements first second
      = SectionSorter.readAddress first - SectionSorter.readAddress second := by
  rw [compareElements_eq]
  have u1 := readAddress_upper first
  have u2 := readAddress_upper second
  apply wrapInt32_of_inRange <;> omega

/-! ## The discovery terminates -/

theorem mem_allPairs (n a : Nat) (k : SType) (h : a < n) : (a, k) ∈ allPairs n := by
  unfold allPairs
  rw [List.mem_flatMap]
  refine ⟨a, List.mem_range.mpr h, ?_⟩
  cases k <;> simp

theorem allPairs_length (n : Nat) : (allPairs n).length = 3 * n := by
  unfold allPairs
  induction n with
  | zero => simp
  | succ m ih =>
    rw [List.range_succ, List.flatMap_append, List.length_append, ih]
    simp
    omega

theorem unvisitedCount_le (n : Nat) (visited : List (Nat × SType)) :
    unvisitedCount n visited ≤ 3 * n := by
  unfold unvisitedCount
  calc _ ≤ (allPairs n).length := List.length_filter_le _ _
    _ = 3 * n := allPairs_length n

theorem filter_notMem_cons_lt (p : Nat × SType) (visited : List (Nat × SType)) :
    ∀ pairs : List (Nat × SType), p ∈ pairs → p ∉ visited →
      (pairs.filter (fun q => decide (q ∉ p :: visited))).length
        < (pairs.filter (fun q => decide (q ∉ visited))).length := by
  intro pairs
  have hle : ∀ u : List (Nat × SType),
      (u.filter (fun q => decide (q ∉ p :: visited))).length
        ≤ (u.filter (fun q => decide (q ∉ visited))).length := by
    intro u
    induction u with
    | nil => simp
    | cons x xs ih =>
      by_cases hx : x ∈ visited
      · have hx' : x ∈ p :: visited := List.mem_cons_of_mem _ hx
        simp [List.filter_cons, hx, hx']
        simpa using ih
      · by_cases hxp : x = p
        · subst hxp
          simp [List.filter_cons, hx]
          have := ih
          simp at this
          omega
        · simp [List.filter_cons, hx, hxp]
          simpa using ih
  induction pairs with
  | nil => intro h; simp at h
  | cons x xs ih =>
    intro hmem hnot
    by_cases hxp : x = p
    · subst hxp
      have h1 := hle xs
      simp [List.filter_cons, hnot]
      simp at h1
      omega
    · have hmem' : p ∈ xs := by
        rcases List.mem_cons.mp hmem with h | h
        · exact absurd h.symm hxp
        · exact h
      have ih' := ih hmem' hnot
      by_cases hx : x ∈ visited
      · have hx' : x ∈ p :: visited := List.mem_cons_of_mem _ hx
        simp [List.filter_cons, hx, hx']
        simpa using ih'
      · simp [List.filter_cons, hx, hxp]
        simpa using ih'

theorem unvisitedCount_cons_lt (n addr : Nat) (stype : SType) (visited : List (Nat × SType))
    (h : addr < n) (hnot : (addr, stype) ∉ visited) :
    unvisitedCount n ((addr, stype) :: visited) < unvisitedCount n visited :=
  filter_notMem_cons_lt (addr, stype) visited (allPairs n) (mem_allPairs n addr stype h) hnot

theorem parseCommands_length_le (desc : Descriptor) (data : List Nat) (boundaries : List Nat)
    (stype : SType) : ∀ (fuel address : Nat),
      (parseCommands desc data boundaries stype fuel address).1.length ≤ fuel := by
  intro fuel
  induction fuel with
  | zero => intro address; simp [parseCommands]
  | succ m ih =>
    intro address
    unfold parseCommands
    split
    · simp
    · simp
    · simp
    · split
      · simp
      · split
        · simp
        · simp
          exact ih _

/-- The references of a command list, the one of the last command apart, are at most as many
as the commands. -/
theorem targets_split_length (cmds : List Command) :
    (cmds.dropLast.filterMap Command.ptr).length
      + (match cmds.getLast?.bind Command.ptr with
          | some t => [WorkItem.target t.1 t.2]
          | none => []).length ≤ cmds.length := by
  rcases List.eq_nil_or_concat cmds with rfl | ⟨init, last, rfl⟩
  · simp
  · have h1 : (init.filterMap Command.ptr).length ≤ init.length :=
      List.length_filterMap_le _ _
    rw [List.concat_eq_append, List.dropLast_concat]
    have h2 : (init ++ [last]).getLast? = some last := by simp
    rw [h2]
    simp only [Option.some_bind, List.length_append, List.length_singleton]
    cases last.ptr with
    | none => simp only [List.length_nil]; omega
    | some t => simp only [List.length_singleton]; omega

theorem workItems_length_le (parsed : Section × SectionEnd) :
    (innerTargets parsed).length + (finalTarget parsed).length
      ≤ parsed.1.commands.length := by
  unfold innerTargets finalTarget
  by_cases h : parsed.2 = SectionEnd.terminator
  · simp only [h, ↓reduceIte, List.length_map]
    exact targets_split_length parsed.1.commands
  · simp only [h, ↓reduceIte, List.length_map, List.length_nil, Nat.add_zero]
    exact List.length_filterMap_le _ _

theorem startSection_items_length (desc : Descriptor) (data : List Nat) (st : Discovery)
    (addr : Nat) (stype : SType) :
    (startSection desc data st addr stype).1.length ≤ data.length + 1 := by
  have h1 := workItems_length_le
    (parseSection desc data (st.sections.map Section.address) stype addr)
  have h2 : (parseSection desc data (st.sections.map Section.address) stype addr).1.commands.length
      ≤ data.length - addr := parseCommands_length_le _ _ _ _ _ _
  simp only [startSection, List.length_append, List.length_cons]
  omega

theorem startSection_visited (desc : Descriptor) (data : List Nat) (st : Discovery)
    (addr : Nat) (stype : SType) :
    (startSection desc data st addr stype).2.visited = (addr, stype) :: st.visited := rfl

theorem startSection_measure (desc : Descriptor) (data : List Nat) (st : Discovery)
    (addr : Nat) (stype : SType) (item : WorkItem) (rest : List WorkItem)
    (hvis : (addr, stype) ∉ st.visited) (hlt : addr < data.length) :
    discoverMeasure data ((startSection desc data st addr stype).1 ++ rest)
        (startSection desc data st addr stype).2
      < discoverMeasure data (item :: rest) st := by
  have h1 := unvisitedCount_cons_lt data.length addr stype st.visited hlt hvis
  have h2 := startSection_items_length desc data st addr stype
  have h3 : (unvisitedCount data.length ((addr, stype) :: st.visited) + 1) * (data.length + 1)
      ≤ unvisitedCount data.length st.visited * (data.length + 1) :=
    Nat.mul_le_mul_right _ h1
  rw [Nat.add_mul] at h3
  simp only [discoverMeasure, startSection_visited, List.length_append, List.length_cons]
  omega

/-- Every step of the discovery lowers the measure of the configuration. -/
theorem discoverStep_measure (desc : Descriptor) (data : List Nat)
    (entries : List (Nat × SType)) (st : Discovery) (item : WorkItem) (rest : List WorkItem) :
    discoverMeasure data ((discoverStep desc data entries st item).1 ++ rest)
        (discoverStep desc data entries st item).2
      < discoverMeasure data (item :: rest) st := by
  cases item with
  | leave addr stype => simp [discoverStep, discoverMeasure]
  | entry addr stype =>
    simp only [discoverStep]
    split
    · simp [discoverMeasure]
    · split
      · simp [discoverMeasure]
      · rename_i hvis hlen
        exact startSection_measure desc data st addr stype _ rest hvis (by omega)
  | target addr stype =>
    simp only [discoverStep]
    split
    · simp [discoverMeasure]
    · split
      · simp [discoverMeasure]
      · split
        · simp [discoverMeasure]
        · rename_i _ hvis hlen
          split
          · simp [discoverMeasure]
          · split
            · exact startSection_measure desc data st addr stype _ rest hvis (by omega)
            · simp [discoverMeasure]
          · exact startSection_measure desc data st addr stype _ rest hvis (by omega)

theorem discoverLoop_complete (desc : Descriptor) (data : List Nat)
    (entries : List (Nat × SType)) :
    ∀ (fuel : Nat) (work : List WorkItem) (st : Discovery),
      discoverMeasure data work st < fuel →
      (discoverLoop desc data entries fuel work st).complete = true := by
  intro fuel
  induction fuel with
  | zero => intro work st h; omega
  | succ m ih =>
    intro work st h
    cases work with
    | nil => simp [discoverLoop]
    | cons item rest =>
      simp only [discoverLoop]
      apply ih
      have := discoverStep_measure desc data entries st item rest
      omega

theorem discoverMeasure_initial (data : List Nat) (entries : List (Nat × SType)) :
    discoverMeasure data (entryItems entries) initialDiscovery < discoverFuel data entries := by
  have h := unvisitedCount_le data.length []
  have h3 : unvisitedCount data.length [] * (data.length + 1)
      ≤ 3 * data.length * (data.length + 1) := Nat.mul_le_mul_right _ h
  simp only [discoverMeasure, discoverFuel, initialDiscovery, entryItems, List.length_map]
  omega

theorem discover_complete (desc : Descriptor) (data : List Nat) (entries : List (Nat × SType)) :
    (discover desc data entries).complete = true :=
  discoverLoop_complete desc data entries _ _ _ (discoverMeasure_initial data entries)

/-- A property of configurations (worklist and state) that every step of the discovery
preserves holds for the final state and the empty worklist. -/
theorem discoverLoop_invariant (desc : Descriptor) (data : List Nat)
    (entries : List (Nat × SType)) (I : List WorkItem → Discovery → Prop)
    (hstep : ∀ item rest st, I (item :: rest) st →
      I ((discoverStep desc data entries st item).1 ++ rest)
        (discoverStep desc data entries st item).2)
    (hdone : ∀ st, I [] st → I [] { st with complete := true }) :
    ∀ (fuel : Nat) (work : List WorkItem) (st : Discovery),
      discoverMeasure data work st < fuel → I work st →
      I [] (discoverLoop desc data entries fuel work st) := by
  intro fuel
  induction fuel with
  | zero => intro work st h; omega
  | succ m ih =>
    intro work st h hI
    cases work with
    | nil => exact hdone st hI
    | cons item rest =>
      simp only [discoverLoop]
      apply ih
      · have := discoverStep_measure desc data entries st item rest
        omega
      · exact hstep item rest st hI

theorem discover_invariant (desc : Descriptor) (data : List Nat)
    (entries : List (Nat × SType)) (I : List WorkItem → Discovery → Prop)
    (hstep : ∀ item rest st, I (item :: rest) st →
      I ((discoverStep desc data entries st item).1 ++ rest)
        (discoverStep desc data entries st item).2)
    (hdone : ∀ st, I [] st → I [] { st with complete := true })
    (hinit : I (entryItems entries) initialDiscovery) :
    I [] (discover desc data entries) :=
  discoverLoop_invariant desc data entries I hstep hdone _ _ _
    (discoverMeasure_initial data entries) hinit

/-- A property of the sections, their endings and the visited set that every start of a
section preserves holds after the discovery. -/
theorem discover_induction (desc : Descriptor) (data : List Nat)
    (entries : List (Nat × SType)) (P : Discovery → Prop)
    (hsame : ∀ st st' : Discovery, st'.sections = st.sections → st'.ends = st.ends →
      st'.visited = st.visited → P st → P st')
    (hstart : ∀ st addr stype, (addr, stype) ∉ st.visited → addr < data.length → P st →
      P (startSection desc data st addr stype).2)
    (hinit : P initialDiscovery) :
    P (discover desc data entries) := by
  apply discover_invariant desc data entries (fun _ st => P st) _ _ hinit
  · intro item rest st h
    cases item with
    | leave addr stype => exact hsame st _ rfl rfl rfl h
    | entry addr stype =>
      simp only [discoverStep]
      split
      · exact h
      · split
        · exact hsame st _ rfl rfl rfl h
        · rename_i hvis hlen
          exact hstart st addr stype hvis (by omega) h
    | target addr stype =>
      simp only [discoverStep]
      split
      · exact hsame st _ rfl rfl rfl h
      · split
        · exact hsame st _ rfl rfl rfl h
        · split
          · exact hsame st _ rfl rfl rfl h
          · rename_i _ hvis hlen
            split
            · exact h
            · split
              · exact hstart st addr stype hvis (by omega) h
              · exact hsame st _ rfl rfl rfl h
            · exact hstart st addr stype hvis (by omega) h
  · intro st h
    exact hsame st _ rfl rfl rfl h

/-! ## References and the removal of duplicates -/

theorem getSectionAndCmd_isSome_iff (l : List Section) (cmd : Command) :
    (getSectionAndCmd l cmd).isSome = true ↔ ∃ r, cmd.ref = some r ∧ RefValid l r := by
  unfold getSectionAndCmd RefValid
  cases hr : cmd.ref with
  | none => simp
  | some r =>
    cases hs : l[r.1]? with
    | none => simp [hs]
    | some sec =>
      by_cases hc : r.2 < sec.commands.length <;> simp [hs, hc]

theorem sameContent_iff_key (a b : Section) : sameContent a b = true ↔ a.key = b.key := by
  unfold sameContent Section.key
  simp [Prod.ext_iff]

theorem sameContent_length (a b : Section) (h : sameContent a b = true) :
    a.commands.length = b.commands.length := by
  unfold sameContent at h
  simp only [Bool.and_eq_true, decide_eq_true_eq] at h
  have := congrArg List.length h.2
  simpa [Section.contentHash] using this

theorem retargetSection_key (remove replace : Nat) (sec : Section) :
    (retargetSection remove replace sec).key = sec.key := by
  simp [retargetSection, Section.key, Section.contentHash, Function.comp_def]

theorem retargetSection_length (remove replace : Nat) (sec : Section) :
    (retargetSection remove replace sec).commands.length = sec.commands.length := by
  simp [retargetSection]

theorem removeSection_eq (l : List Section) (remove replace : Nat)
    (h1 : replace < remove) (h2 : remove < l.length) :
    removeSection l remove replace
      = some ((l.eraseIdx remove).map (retargetSection remove replace), replace) := by
  unfold removeSection
  have hc : remove < l.length ∧ replace < l.length ∧ remove ≠ replace :=
    ⟨h2, by omega, by omega⟩
  have hn : ¬ remove < replace := by omega
  rw [if_pos hc]
  simp only [hn, ↓reduceIte]

/-- Index lookup in the section list after a removal. -/
theorem getElem?_removed (l : List Section) (remove replace x : Nat) :
    ((l.eraseIdx remove).map (retargetSection remove replace))[x]?
      = (if x < remove then l[x]? else l[x + 1]?).map (retargetSection remove replace) := by
  rw [List.getElem?_map, List.getElem?_eraseIdx]

theorem refValid_retarget (l : List Section) (remove replace : Nat) (r : Nat × Nat)
    (h1 : replace < remove)
    (hsame : ∀ a b, l[replace]? = some a → l[remove]? = some b →
      a.commands.length = b.commands.length)
    (hrep : ∃ a, l[replace]? = some a)
    (hv : RefValid l r) :
    RefValid ((l.eraseIdx remove).map (retargetSection remove replace))
      (retarget remove replace r) := by
  obtain ⟨sec, hsec, hlen⟩ := hv
  unfold RefValid retarget
  by_cases hj : r.1 = remove
  · obtain ⟨a, ha⟩ := hrep
    refine ⟨retargetSection remove replace a, ?_, ?_⟩
    · simp only [hj, ↓reduceIte]
      rw [getElem?_removed]
      simp [h1, ha]
    · simp only [hj, ↓reduceIte]
      rw [retargetSection_length, hsame a sec ha (hj ▸ hsec)]
      exact hlen
  · by_cases hgt : remove < r.1
    · refine ⟨retargetSection remove replace sec, ?_, ?_⟩
      · simp only [hj, ↓reduceIte, hgt]
        rw [getElem?_removed]
        have h3 : ¬ (r.1 - 1 < remove) := by omega
        have h4 : r.1 - 1 + 1 = r.1 := by omega
        simp [h3, h4, hsec]
      · simp only [hj, ↓reduceIte, hgt]
        rw [retargetSection_length]
        exact hlen
    · refine ⟨retargetSection remove replace sec, ?_, ?_⟩
      · simp only [hj, ↓reduceIte, hgt]
        rw [getElem?_removed]
        have h3 : r.1 < remove := by omega
        simp [h3, hsec]
      · simp only [hj, ↓reduceIte, hgt]
        rw [retargetSection_length]
        exact hlen

theorem allResolved_removed (l : List Section) (remove replace : Nat)
    (h1 : replace < remove)
    (hsame : ∀ a b, l[replace]? = some a → l[remove]? = some b →
      a.commands.length = b.commands.length)
    (hrep : ∃ a, l[replace]? = some a)
    (h : AllResolved l) :
    AllResolved ((l.eraseIdx remove).map (retargetSection remove replace)) := by
  intro sec' hsec' cmd' hcmd' hptr
  rw [List.mem_map] at hsec'
  obtain ⟨sec, hsec, rfl⟩ := hsec'
  have hsecl : sec ∈ l := List.mem_of_mem_eraseIdx hsec
  simp only [retargetSection, List.mem_map] at hcmd'
  obtain ⟨cmd, hcmd, rfl⟩ := hcmd'
  have hres := h sec hsecl cmd hcmd hptr
  rw [getSectionAndCmd_isSome_iff] at hres ⊢
  obtain ⟨r, hr, hv⟩ := hres
  exact ⟨retarget remove replace r, by simp [hr],
    refValid_retarget l remove replace r h1 hsame hrep hv⟩

/-- What `findDuplicateFrom` returns is a pair of positions holding sections with the same
kind and content, the first position before the second. -/
theorem findDuplicateFrom_some : ∀ (rest earlier : List Section) (i j : Nat),
    findDuplicateFrom earlier rest = some (i, j) →
    i < j ∧ ∃ a b, (earlier ++ rest)[i]? = some a ∧ (earlier ++ rest)[j]? = some b ∧
      sameContent a b = true := by
  intro rest
  induction rest with
  | nil => intro earlier i j h; simp [findDuplicateFrom] at h
  | cons sec rest ih =>
    intro earlier i j h
    unfold findDuplicateFrom at h
    split at h
    · rename_i i' hfind
      simp only [Option.some.injEq, Prod.mk.injEq] at h
      obtain ⟨rfl, rfl⟩ := h
      rw [List.findIdx?_eq_some_iff_getElem] at hfind
      obtain ⟨hlt, hp, _⟩ := hfind
      refine ⟨hlt, earlier[i'], sec, ?_, ?_, hp⟩
      · rw [List.getElem?_append_left hlt, List.getElem?_eq_getElem hlt]
      · rw [List.getElem?_append_right (Nat.le_refl _)]
        simp
    · have := ih (earlier ++ [sec]) i j h
      simpa using this

theorem findDuplicateFrom_none : ∀ (rest earlier : List Section),
    findDuplicateFrom earlier rest = none →
    (∀ e ∈ earlier, ∀ s ∈ rest, sameContent e s = false) ∧
      List.Pairwise (fun a b => sameContent a b = false) rest := by
  intro rest
  induction rest with
  | nil => intro earlier _; simp
  | cons sec rest ih =>
    intro earlier h
    unfold findDuplicateFrom at h
    split at h
    · simp at h
    · rename_i hfind
      rw [List.findIdx?_eq_none_iff] at hfind
      obtain ⟨h1, h2⟩ := ih (earlier ++ [sec]) h
      refine ⟨?_, ?_⟩
      · intro e he s hs
        rcases List.mem_cons.mp hs with rfl | hs
        · simpa using hfind e he
        · exact h1 e (List.mem_append_left _ he) s hs
      · rw [List.pairwise_cons]
        exact ⟨fun s hs => h1 sec (by simp) s hs, h2⟩

theorem findDuplicate_some (l : List Section) (i j : Nat) (h : findDuplicate l = some (i, j)) :
    i < j ∧ ∃ a b, l[i]? = some a ∧ l[j]? = some b ∧ sameContent a b = true := by
  have := findDuplicateFrom_some l [] i j h
  simpa using this

theorem findDuplicate_none (l : List Section) (h : findDuplicate l = none) :
    List.Pairwise (fun a b => sameContent a b = false) l :=
  (findDuplicateFrom_none l [] h).2

/-- One round of the deduplication loop. -/
theorem dedupLoop_succ_some (fuel : Nat) (l : List Section) (i j : Nat)
    (h : findDuplicate l = some (i, j)) :
    dedupLoop (fuel + 1) l = dedupLoop fuel ((l.eraseIdx j).map (retargetSection j i)) := by
  obtain ⟨hij, a, b, ha, hb, _⟩ := findDuplicate_some l i j h
  have hj : j < l.length := by
    rcases Nat.lt_or_ge j l.length with hlt | hge
    · exact hlt
    · rw [List.getElem?_eq_none hge] at hb
      cases hb
  simp only [dedupLoop, h, removeSection_eq l j i hij hj]

theorem dedupLoop_none (fuel : Nat) (l : List Section) (h : findDuplicate l = none) :
    dedupLoop fuel l = l := by
  cases fuel with
  | zero => rfl
  | succ m => simp only [dedupLoop, h]

/-- A property of section lists that every removal of a duplicate preserves holds after the
deduplication loop. -/
theorem dedupLoop_induction (P : List Section → Prop)
    (hstep : ∀ (l : List Section) (i j : Nat) (a b : Section), i < j → l[i]? = some a →
      l[j]? = some b → sameContent a b = true → P l →
      P ((l.eraseIdx j).map (retargetSection j i))) :
    ∀ (fuel : Nat) (l : List Section), P l → P (dedupLoop fuel l) := by
  intro fuel
  induction fuel with
  | zero => intro l h; exact h
  | succ m ih =>
    intro l h
    cases hd : findDuplicate l with
    | none => rw [dedupLoop_none _ _ hd]; exact h
    | some p =>
      obtain ⟨i, j⟩ := p
      rw [dedupLoop_succ_some m l i j hd]
      obtain ⟨hij, a, b, ha, hb, hab⟩ := findDuplicate_some l i j hd
      exact ih _ (hstep l i j a b hij ha hb hab h)

theorem allResolved_dedup (l : List Section) (h : AllResolved l) : AllResolved (dedup l) := by
  unfold dedup
  apply dedupLoop_induction AllResolved _ _ _ h
  intro l i j a b hij ha hb hab hl
  apply allResolved_removed l j i hij _ ⟨a, ha⟩ hl
  intro a' b' ha' hb'
  rw [ha] at ha'
  rw [hb] at hb'
  cases ha'
  cases hb'
  exact sameContent_length a b hab

theorem allResolved_of_not_hasUnresolved (l : List Section) (h : hasUnresolved l = false) :
    AllResolved l := by
  intro sec hsec cmd hcmd hptr
  unfold hasUnresolved at h
  rw [List.any_eq_false] at h
  have h1 := h sec hsec
  simp only [Bool.not_eq_true] at h1
  rw [List.any_eq_false] at h1
  have h2 := h1 cmd hcmd
  simp only [hptr, Bool.true_and, Bool.not_eq_true, Option.isNone_eq_false_iff] at h2
  simpa using h2

/-- After the loop has run with enough fuel no duplicate is left. -/
theorem dedupLoop_no_duplicate : ∀ (fuel : Nat) (l : List Section), l.length ≤ fuel →
    findDuplicate (dedupLoop fuel l) = none := by
  intro fuel
  induction fuel with
  | zero =>
    intro l h
    have : l = [] := List.eq_nil_of_length_eq_zero (by omega)
    subst this
    rfl
  | succ m ih =>
    intro l h
    cases hd : findDuplicate l with
    | none => rw [dedupLoop_none _ _ hd]; exact hd
    | some p =>
      obtain ⟨i, j⟩ := p
      rw [dedupLoop_succ_some m l i j hd]
      apply ih
      obtain ⟨hij, a, b, ha, hb, _⟩ := findDuplicate_some l i j hd
      have hj : j < l.length := by
        rcases Nat.lt_or_ge j l.length with hlt | hge
        · exact hlt
        · rw [List.getElem?_eq_none hge] at hb
          cases hb
      rw [List.length_map, List.length_eraseIdx_of_lt hj]
      omega

/-! ## The deduplication seen through the graph view -/

theorem map_eraseIdx {α β : Type} (f : α → β) : ∀ (l : List α) (j : Nat),
    (l.eraseIdx j).map f = (l.map f).eraseIdx j := by
  intro l
  induction l with
  | nil => intro j; rfl
  | cons x xs ih =>
    intro j
    cases j with
    | zero => rfl
    | succ j => simp [ih]

theorem keyAt_removed (l : List Section) (i j : Nat) (a b : Section) (hij : i < j)
    (ha : l[i]? = some a) (hb : l[j]? = some b) (hab : a.key = b.key) (r : Nat × Nat) :
    keyAt ((l.eraseIdx j).map (retargetSection j i)) (retarget j i r).1 = keyAt l r.1 := by
  unfold keyAt retarget
  rw [getElem?_removed]
  by_cases hj : r.1 = j
  · simp [hj, hij, ha, hb, retargetSection_key, hab]
  · by_cases hgt : j < r.1
    · have h3 : ¬ (r.1 - 1 < j) := by omega
      have h4 : r.1 - 1 + 1 = r.1 := by omega
      simp only [hj, ↓reduceIte, hgt, h3, h4, Option.map_map]
      congr 1
      funext s
      exact retargetSection_key j i s
    · have h3 : r.1 < j := by omega
      simp only [hj, ↓reduceIte, hgt, h3, Option.map_map]
      congr 1
      funext s
      exact retargetSection_key j i s

theorem graphView_removed (l : List Section) (i j : Nat) (a b : Section) (hij : i < j)
    (ha : l[i]? = some a) (hb : l[j]? = some b) (hab : a.key = b.key) :
    graphView ((l.eraseIdx j).map (retargetSection j i)) = (graphView l).eraseIdx j := by
  unfold graphView
  rw [← map_eraseIdx, List.map_map]
  apply List.map_congr_left
  intro sec _
  simp only [Function.comp_apply, retargetSection_key]
  congr 1
  simp only [retargetSection, List.map_map]
  apply List.map_congr_left
  intro cmd _
  simp only [Function.comp_apply, referenceView, Option.map_map]
  congr 1
  funext r
  simp only [Function.comp_apply]
  rw [keyAt_removed l i j a b hij ha hb hab r]
  simp [retarget]
  split <;> [rfl; (split <;> rfl)]

theorem keepFirst_eraseIdx {α : Type} : ∀ (v : List (SectionKey × α)) (seen : List SectionKey)
    (j : Nat) (e : SectionKey × α), v[j]? = some e →
    (e.1 ∈ seen ∨ ∃ i e', i < j ∧ v[i]? = some e' ∧ e'.1 = e.1) →
    keepFirst seen (v.eraseIdx j) = keepFirst seen v := by
  intro v
  induction v with
  | nil => intro seen j e h; simp at h
  | cons x xs ih =>
    intro seen j e hj hdup
    cases j with
    | zero =>
      simp only [List.getElem?_cons_zero, Option.some.injEq] at hj
      subst hj
      have hseen : x.1 ∈ seen := by
        rcases hdup with h | ⟨i, e', hi, _, _⟩
        · exact h
        · omega
      simp [keepFirst, hseen]
    | succ j =>
      simp only [List.getElem?_cons_succ] at hj
      simp only [List.eraseIdx_cons_succ, keepFirst]
      by_cases hx : x.1 ∈ seen
      · simp only [hx, ↓reduceIte]
        apply ih seen j e hj
        rcases hdup with h | ⟨i, e', hi, hi', hk⟩
        · exact Or.inl h
        · cases i with
          | zero =>
            simp only [List.getElem?_cons_zero, Option.some.injEq] at hi'
            subst hi'
            exact Or.inl (hk ▸ hx)
          | succ i =>
            simp only [List.getElem?_cons_succ] at hi'
            exact Or.inr ⟨i, e', by omega, hi', hk⟩
      · simp only [hx, ↓reduceIte]
        congr 1
        apply ih (x.1 :: seen) j e hj
        rcases hdup with h | ⟨i, e', hi, hi', hk⟩
        · exact Or.inl (List.mem_cons_of_mem _ h)
        · cases i with
          | zero =>
            simp only [List.getElem?_cons_zero, Option.some.injEq] at hi'
            subst hi'
            exact Or.inl (hk ▸ List.mem_cons_self _ _)
          | succ i =>
            simp only [List.getElem?_cons_succ] at hi'
            exact Or.inr ⟨i, e', by omega, hi', hk⟩

theorem keepFirst_of_distinct {α : Type} : ∀ (v : List (SectionKey × α))
    (seen : List SectionKey), List.Pairwise (fun a b => a.1 ≠ b.1) v →
    (∀ e ∈ v, e.1 ∉ seen) → keepFirst seen v = v := by
  intro v
  induction v with
  | nil => intro seen _ _; rfl
  | cons x xs ih =>
    intro seen hp hs
    rw [List.pairwise_cons] at hp
    have hx : x.1 ∉ seen := hs x (List.mem_cons_self _ _)
    simp only [keepFirst, hx, ↓reduceIte]
    congr 1
    apply ih _ hp.2
    intro e he
    simp only [List.mem_cons, not_or]
    exact ⟨fun h => hp.1 e he h.symm, hs e (List.mem_cons_of_mem _ he)⟩

theorem graphView_pairwise (l : List Section)
    (h : List.Pairwise (fun a b => sameContent a b = false) l) :
    List.Pairwise (fun a b => a.1 ≠ b.1) (graphView l) := by
  unfold graphView
  rw [List.pairwise_map]
  apply List.Pairwise.imp _ h
  intro a b hab hkey
  have := (sameContent_iff_key a b).mpr hkey
  rw [hab] at this
  cases this

theorem graphView_dedupLoop : ∀ (fuel : Nat) (l : List Section), l.length ≤ fuel →
    graphView (dedupLoop fuel l) = keepFirst [] (graphView l) := by
  intro fuel
  induction fuel with
  | zero =>
    intro l h
    have : l = [] := List.eq_nil_of_length_eq_zero (by omega)
    subst this
    rfl
  | succ m ih =>
    intro l h
    cases hd : findDuplicate l with
    | none =>
      rw [dedupLoop_none _ _ hd]
      symm
      apply keepFirst_of_distinct _ _ (graphView_pairwise l (findDuplicate_none l hd))
      intro e _
      simp
    | some p =>
      obtain ⟨i, j⟩ := p
      rw [dedupLoop_succ_some m l i j hd]
      obtain ⟨hij, a, b, ha, hb, hab⟩ := findDuplicate_some l i j hd
      have hkey := (sameContent_iff_key a b).mp hab
      have hj : j < l.length := by
        rcases Nat.lt_or_ge j l.length with hlt | hge
        · exact hlt
        · rw [List.getElem?_eq_none hge] at hb
          cases hb
      rw [ih _ (by rw [List.length_map, List.length_eraseIdx_of_lt hj]; omega),
        graphView_removed l i j a b hij ha hb hkey]
      apply keepFirst_eraseIdx (graphView l) [] j
        (b.key, b.commands.map (referenceView l))
      · simp [graphView, hb]
      · refine Or.inr ⟨i, (a.key, a.commands.map (referenceView l)), hij, ?_, hkey⟩
        simp [graphView, ha]

/-- Every content class present before the loop is still present after it. -/
theorem retained_dedup (l : List Section) :
    ∀ sec ∈ l, ∃ kept ∈ dedup l, sameContent sec kept = true := by
  unfold dedup
  apply dedupLoop_induction (fun l' => ∀ sec ∈ l, ∃ kept ∈ l', sameContent sec kept = true)
  · intro l' i j a b hij ha hb hab hl sec hsec
    obtain ⟨kept, hkept, hsame⟩ := hl sec hsec
    obtain ⟨p, hp⟩ := List.mem_iff_getElem?.mp hkept
    have hfind : ∀ (x : Nat) (s : Section), (l'.eraseIdx j)[x]? = some s →
        retargetSection j i s ∈ (l'.eraseIdx j).map (retargetSection j i) := by
      intro x s hx
      exact List.mem_map_of_mem _ (List.mem_iff_getElem?.mpr ⟨x, hx⟩)
    have hk : ∀ s : Section, sameContent sec s = true →
        sameContent sec (retargetSection j i s) = true := by
      intro s hs
      rw [sameContent_iff_key] at hs ⊢
      rw [retargetSection_key]
      exact hs
    by_cases hpj : p = j
    · subst hpj
      rw [hb] at hp
      cases hp
      refine ⟨retargetSection p i a, hfind i a ?_, hk a ?_⟩
      · rw [List.getElem?_eraseIdx]
        simp [hij, ha]
      · rw [sameContent_iff_key] at hsame hab ⊢
        rw [hsame, hab]
    · by_cases hlt : p < j
      · refine ⟨retargetSection j i kept, hfind p kept ?_, hk kept hsame⟩
        rw [List.getElem?_eraseIdx]
        simp [hlt, hp]
      · refine ⟨retargetSection j i kept, hfind (p - 1) kept ?_, hk kept hsame⟩
        rw [List.getElem?_eraseIdx]
        have h3 : ¬ (p - 1 < j) := by omega
        have h4 : p - 1 + 1 = p := by omega
        simp [h3, h4, hp]
  · intro sec hsec
    refine ⟨sec, hsec, ?_⟩
    rw [sameContent_iff_key]

/-! ## Decoding a command and a section -/

theorem take_drop_succ (data : List Nat) (address n : Nat) (b : Nat)
    (hb : data[address]? = some b) :
    (data.drop address).take (1 + n) = b :: (data.drop (address + 1)).take n := by
  have hlt : address < data.length := by
    by_contra hge
    rw [List.getElem?_eq_none (by omega)] at hb
    cases hb
  rw [List.getElem?_eq_getElem hlt] at hb
  simp only [Option.some.injEq] at hb
  rw [List.drop_eq_getElem_cons hlt, hb, Nat.add_comm 1 n, List.take_succ_cons]

/-- What a decoded command is: it sits at the address, its bytes are those of the buffer,
its description is the one of its first byte, and its candidate target is the one its
reference field yields. -/
theorem getCommand_command (desc : Descriptor) (data : List Nat) (address : Nat)
    (stype : SType) (cmd : Command) (term : Bool)
    (h : getCommand desc data address stype = DecodeResult.command cmd term) :
    cmd.address = address ∧ address < data.length ∧ address + cmd.length ≤ data.length ∧
    (data.drop address).take cmd.length = cmd.rawBytes ∧
    ∃ d, desc.getDescription cmd.firstByte stype = some d ∧ term = d.terminator ∧
      ∀ t, cmd.ptr = some t → d.targetSType = some t.2 ∧
        targetAddress d.addressing cmd.args (address + cmd.length) = some t.1 := by
  unfold getCommand at h
  split at h
  · cases h
  · rename_i b hb
    have hlt : address < data.length := by
      by_contra hge
      rw [List.getElem?_eq_none (by omega)] at hb
      cases hb
    split at h
    · cases h
    · rename_i d hd
      split at h
      · rename_i hlen
        have hargs : ((data.drop (address + 1)).take d.argBytes).length = d.argBytes := by
          rw [List.length_take, List.length_drop]
          omega
        split at h
        · rename_i hk
          simp only [DecodeResult.command.injEq] at h
          obtain ⟨rfl, rfl⟩ := h
          refine ⟨rfl, hlt, ?_, ?_, d, hd, rfl, ?_⟩
          · simp only [Command.length, hargs]
            omega
          · simp only [Command.length, Command.rawBytes, hargs]
            exact take_drop_succ data address d.argBytes b hb
          · intro t ht
            cases ht
        · rename_i k hk
          dsimp only at h
          split at h
          · cases h
          · rename_i t ht
            simp only [DecodeResult.command.injEq] at h
            obtain ⟨rfl, rfl⟩ := h
            refine ⟨rfl, hlt, ?_, ?_, d, hd, rfl, ?_⟩
            · simp only [Command.length, hargs]
              omega
            · simp only [Command.length, Command.rawBytes, hargs]
              exact take_drop_succ data address d.argBytes b hb
            · intro t' ht'
              simp only [Option.some.injEq] at ht'
              subst ht'
              refine ⟨hk, ?_⟩
              simp only [Command.length, hargs]
              rw [← ht]
              congr 1
              omega
      · cases h

theorem getCommand_address (desc : Descriptor) (data : List Nat) (address : Nat)
    (stype : SType) (cmd : Command) (term : Bool)
    (h : getCommand desc data address stype = DecodeResult.command cmd term) :
    cmd.address = address ∧ address < data.length :=
  ⟨(getCommand_command desc data address stype cmd term h).1,
    (getCommand_command desc data address stype cmd term h).2.1⟩

theorem getCommand_illegal (desc : Descriptor) (data : List Nat) (address : Nat)
    (stype : SType) (b : Nat) (hb : data[address]? = some b)
    (hd : desc.getDescription b stype = none) :
    getCommand desc data address stype = DecodeResult.illegalOpcode := by
  unfold getCommand
  simp [hb, hd]

theorem getCommand_outside (desc : Descriptor) (data : List Nat) (address : Nat)
    (stype : SType) (h : data.length ≤ address) :
    getCommand desc data address stype = DecodeResult.truncated := by
  unfold getCommand
  rw [List.getElem?_eq_none h]

theorem command_length_pos (c : Command) : 0 < c.length := by
  unfold Command.length
  omega

theorem parseCommands_fuel (desc : Descriptor) (data : List Nat) (boundaries : List Nat)
    (stype : SType) : ∀ (fuel1 fuel2 address : Nat),
      data.length - address ≤ fuel1 → data.length - address ≤ fuel2 →
      parseCommands desc data boundaries stype fuel1 address
        = parseCommands desc data boundaries stype fuel2 address := by
  intro fuel1
  induction fuel1 with
  | zero =>
    intro fuel2 address h1 _
    have hout : data.length ≤ address := by omega
    cases fuel2 with
    | zero => rfl
    | succ k => simp only [parseCommands, getCommand_outside desc data address stype hout]
  | succ m ih =>
    intro fuel2 address h1 h2
    cases fuel2 with
    | zero =>
      have hout : data.length ≤ address := by omega
      simp only [parseCommands, getCommand_outside desc data address stype hout]
    | succ k =>
      simp only [parseCommands]
      cases hget : getCommand desc data address stype with
      | illegalOpcode => rfl
      | truncated => rfl
      | outOfRange => rfl
      | command cmd term =>
        have hc := getCommand_address desc data address stype cmd term hget
        simp only
        have hlen := command_length_pos cmd
        rw [ih k (address + cmd.length) (by omega) (by omega)]

theorem parseCommands_decoded (desc : Descriptor) (data : List Nat) (boundaries : List Nat)
    (stype : SType) : ∀ (fuel address : Nat),
      Decoded desc data stype address
        (parseCommands desc data boundaries stype fuel address).1 := by
  intro fuel
  induction fuel with
  | zero => intro address; simp [parseCommands, Decoded]
  | succ m ih =>
    intro address
    unfold parseCommands
    split
    · simp [Decoded]
    · simp [Decoded]
    · simp [Decoded]
    · rename_i c term hget
      obtain ⟨h1, _, h2, h3, d, hd, _, h4⟩ :=
        getCommand_command desc data address stype c term hget
      have h5 : ∀ t, c.ptr = some t →
          ∃ d, desc.getDescription c.firstByte stype = some d ∧ d.targetSType = some t.2 ∧
            targetAddress d.addressing c.args (address + c.length) = some t.1 :=
        fun t ht => ⟨d, hd, (h4 t ht).1, (h4 t ht).2⟩
      split
      · exact ⟨h1, h2, h3, h5, trivial⟩
      · split
        · exact ⟨h1, h2, h3, h5, trivial⟩
        · exact ⟨h1, h2, h3, h5, ih _⟩

/-- An illegal opcode after a decoded command: when a command of the decoded list is no
terminator, the address after it is no section boundary, and the byte there is no opcode of
the section kind, the decoding stops with `illegalOpcode`. -/
theorem parseCommands_illegal_after (desc : Descriptor) (data : List Nat)
    (boundaries : List Nat) (stype : SType) (cmd : Command) (d : CommandDescription) (b : Nat)
    (hd : desc.getDescription cmd.firstByte stype = some d) (hterm : d.terminator = false)
    (hbound : cmd.address + cmd.length ∉ boundaries)
    (hb : data[cmd.address + cmd.length]? = some b)
    (hillegal : desc.getDescription b stype = none) :
    ∀ (fuel address : Nat), data.length - address ≤ fuel →
      cmd ∈ (parseCommands desc data boundaries stype fuel address).1 →
      (parseCommands desc data boundaries stype fuel address).2 = SectionEnd.illegalOpcode := by
  have hnext : cmd.address + cmd.length < data.length := by
    by_contra hge
    rw [List.getElem?_eq_none (by omega)] at hb
    cases hb
  intro fuel
  induction fuel with
  | zero => intro address _ h; simp [parseCommands] at h
  | succ m ih =>
    intro address hfuel h
    unfold parseCommands at h ⊢
    cases hget : getCommand desc data address stype with
    | illegalOpcode => rfl
    | truncated => simp [hget] at h
    | outOfRange => simp [hget] at h
    | command c term =>
      obtain ⟨hc1, hc2, _, _, d', hd', hterm', _⟩ :=
        getCommand_command desc data address stype c term hget
      simp only [hget] at h ⊢
      have hhead : cmd = c → term = false ∧ address + c.length ∉ boundaries := by
        intro heq
        subst heq
        rw [hd] at hd'
        simp only [Option.some.injEq] at hd'
        subst hd'
        refine ⟨by rw [hterm', hterm], ?_⟩
        rw [← hc1]
        exact hbound
      by_cases ht : term = true
      · simp only [ht, ↓reduceIte, List.mem_singleton] at h
        have := (hhead h).1
        rw [ht] at this
        cases this
      · simp only [ht, Bool.false_eq_true, ↓reduceIte] at h ⊢
        by_cases hbd : address + c.length ∈ boundaries
        · simp only [hbd, ↓reduceIte, List.mem_singleton] at h
          exact absurd hbd (hhead h).2
        · simp only [hbd, ↓reduceIte, List.mem_cons] at h ⊢
          have hlen := command_length_pos c
          rcases h with heq | hrest
          · -- the next command is the illegal one
            subst heq
            rw [hc1] at hb hnext
            obtain ⟨k, hk⟩ : ∃ k, m = k + 1 := ⟨m - 1, by omega⟩
            subst hk
            simp only [parseCommands, getCommand_illegal desc data _ stype b hb hillegal]
          · exact ih _ (by omega) hrest

theorem parseSection_illegal_after (desc : Descriptor) (data : List Nat)
    (boundaries : List Nat) (stype : SType) (address : Nat) (cmd : Command)
    (d : CommandDescription) (b : Nat)
    (hcmd : cmd ∈ (parseSection desc data boundaries stype address).1.commands)
    (hd : desc.getDescription cmd.firstByte stype = some d) (hterm : d.terminator = false)
    (hbound : cmd.address + cmd.length ∉ boundaries)
    (hb : data[cmd.address + cmd.length]? = some b)
    (hillegal : desc.getDescription b stype = none) :
    (parseSection desc data boundaries stype address).2 = SectionEnd.illegalOpcode :=
  parseCommands_illegal_after desc data boundaries stype cmd d b hd hterm hbound hb hillegal
    _ address (Nat.le_refl _) hcmd

/-- A legal first byte whose arguments fit the buffer is decoded to a command of the
declared length, unless its reference field is out of range. -/
theorem getCommand_legal (desc : Descriptor) (data : List Nat) (address : Nat)
    (stype : SType) (firstbyte : Nat) (d : CommandDescription)
    (hb : data[address]? = some firstbyte)
    (hd : desc.getDescription firstbyte stype = some d)
    (hfit : address + 1 + d.argBytes ≤ data.length) :
    getCommand desc data address stype = DecodeResult.outOfRange ∨
    ∃ c, getCommand desc data address stype = DecodeResult.command c d.terminator ∧
      c.length = 1 + d.argBytes := by
  have hargs : ((data.drop (address + 1)).take d.argBytes).length = d.argBytes := by
    rw [List.length_take, List.length_drop]
    omega
  unfold getCommand
  simp only [hb, hd, hfit, ↓reduceIte]
  cases hk : d.targetSType with
  | none =>
    right
    exact ⟨_, rfl, by simp only [Command.length, hargs]⟩
  | some k =>
    simp only
    cases ht : targetAddress d.addressing ((data.drop (address + 1)).take d.argBytes)
        (address + 1 + d.argBytes) with
    | none => exact Or.inl rfl
    | some t =>
      right
      exact ⟨_, rfl, by simp only [Command.length, hargs]⟩

theorem legalRun_le (desc : Descriptor) (data : List Nat) (stype : SType) :
    ∀ (n a b : Nat), LegalRun desc data stype n a b → a ≤ b := by
  intro n
  induction n with
  | zero =>
    intro a b h
    exact Nat.le_of_eq h
  | succ m ih =>
    intro a b h
    obtain ⟨firstbyte, d, _, _, _, hrest⟩ := h
    have := ih _ _ hrest
    omega

/-- A run of legal commands that leads to an illegal opcode, with no section boundary on
the way, makes the decoding stop with an error. -/
theorem parseCommands_legalRun (desc : Descriptor) (data : List Nat) (boundaries : List Nat)
    (stype : SType) (b x : Nat) (hb : data[b]? = some x)
    (hillegal : desc.getDescription x stype = none) :
    ∀ (n fuel a : Nat), LegalRun desc data stype n a b →
      (∀ bd ∈ boundaries, ¬ (a < bd ∧ bd ≤ b)) → data.length - a ≤ fuel →
      (parseCommands desc data boundaries stype fuel a).2.isError = true := by
  have hblt : b < data.length := by
    by_contra hge
    rw [List.getElem?_eq_none (by omega)] at hb
    cases hb
  intro n
  induction n with
  | zero =>
    intro fuel a hrun _ hfuel
    have hab : a = b := hrun
    subst hab
    obtain ⟨k, hk⟩ : ∃ k, fuel = k + 1 := ⟨fuel - 1, by omega⟩
    subst hk
    simp only [parseCommands, getCommand_illegal desc data a stype x hb hillegal]
    rfl
  | succ m ih =>
    intro fuel a hrun hbound hfuel
    obtain ⟨firstbyte, d, hfb, hd, hterm, hrest⟩ := hrun
    have hle := legalRun_le desc data stype m _ b hrest
    obtain ⟨k, hk⟩ : ∃ k, fuel = k + 1 := ⟨fuel - 1, by omega⟩
    subst hk
    rcases getCommand_legal desc data a stype firstbyte d hfb hd (by omega) with hget | hget
    · simp only [parseCommands, hget]
      rfl
    · obtain ⟨c, hget, hlen⟩ := hget
      have hnot : a + c.length ∉ boundaries := by
        intro hmem
        exact hbound _ hmem ⟨by omega, by omega⟩
      simp only [parseCommands, hget, hterm, Bool.false_eq_true, ↓reduceIte, hnot]
      have hnext : a + c.length = a + 1 + d.argBytes := by omega
      rw [hnext]
      apply ih k (a + 1 + d.argBytes) hrest
      · intro bd hbd hin
        exact hbound bd hbd ⟨by omega, hin.2⟩
      · omega

/-- The last command of a section that was decoded to a terminator is a terminator. -/
theorem parseCommands_terminator (desc : Descriptor) (data : List Nat)
    (boundaries : List Nat) (stype : SType) : ∀ (fuel address : Nat),
      (parseCommands desc data boundaries stype fuel address).2 = SectionEnd.terminator →
      ∃ c d, (parseCommands desc data boundaries stype fuel address).1.getLast? = some c ∧
        desc.getDescription c.firstByte stype = some d ∧ d.terminator = true := by
  intro fuel
  induction fuel with
  | zero => intro address h; simp [parseCommands] at h
  | succ m ih =>
    intro address h
    unfold parseCommands at h ⊢
    cases hget : getCommand desc data address stype with
    | illegalOpcode => simp [hget] at h
    | truncated => simp [hget] at h
    | outOfRange => simp [hget] at h
    | command c term =>
      obtain ⟨_, _, _, _, d', hd', hterm', _⟩ :=
        getCommand_command desc data address stype c term hget
      simp only [hget] at h ⊢
      by_cases ht : term = true
      · simp only [ht, ↓reduceIte]
        exact ⟨c, d', rfl, hd', by rw [← hterm', ht]⟩
      · simp only [ht, Bool.false_eq_true, ↓reduceIte] at h ⊢
        by_cases hbd : address + c.length ∈ boundaries
        · simp [hbd] at h
        · simp only [hbd, ↓reduceIte] at h ⊢
          obtain ⟨c', d'', hlast, hd'', hterm''⟩ := ih _ h
          refine ⟨c', d'', ?_, hd'', hterm''⟩
          rw [List.getLast?_cons, hlast]
          rfl

/-! ## Decoded command lists -/

theorem decoded_map_resolve (desc : Descriptor) (data : List Nat) (stype : SType)
    (l : List Section) : ∀ (cmds : List Command) (addr : Nat),
      Decoded desc data stype addr cmds →
      Decoded desc data stype addr (cmds.map (resolveCommand l)) := by
  intro cmds
  induction cmds with
  | nil => intro addr _; trivial
  | cons c rest ih =>
    intro addr h
    obtain ⟨h1, h2, h3, h4, h5⟩ := h
    exact ⟨h1, h2, h3, h4, ih _ h5⟩

/-- The bytes of decoded commands are a slice of the buffer. -/
theorem decoded_rawBytes (desc : Descriptor) (data : List Nat) (stype : SType) :
    ∀ (cmds : List Command) (addr : Nat), addr ≤ data.length →
      Decoded desc data stype addr cmds →
      addr + (cmds.map Command.length).sum ≤ data.length ∧
      cmds.flatMap Command.rawBytes
        = (data.drop addr).take (cmds.map Command.length).sum := by
  intro cmds
  induction cmds with
  | nil => intro addr h _; simp [h]
  | cons c rest ih =>
    intro addr hle h
    obtain ⟨_, h2, h3, _, h5⟩ := h
    obtain ⟨ih1, ih2⟩ := ih (addr + c.length) h2 h5
    simp only [List.map_cons, List.sum_cons, List.flatMap_cons]
    refine ⟨by omega, ?_⟩
    rw [List.take_add, h3, ih2, List.drop_drop]

/-- The address of a decoded command is the start address plus the lengths before it. -/
theorem decoded_address (desc : Descriptor) (data : List Nat) (stype : SType) :
    ∀ (cmds : List Command) (addr c : Nat) (cmd : Command),
      Decoded desc data stype addr cmds → cmds[c]? = some cmd →
      cmd.address = addr + ((cmds.take c).map Command.length).sum := by
  intro cmds
  induction cmds with
  | nil => intro addr c cmd _ h; simp at h
  | cons x rest ih =>
    intro addr c cmd h hc
    obtain ⟨h1, _, _, _, h5⟩ := h
    cases c with
    | zero =>
      simp only [List.getElem?_cons_zero, Option.some.injEq] at hc
      subst hc
      simp [h1]
    | succ c =>
      simp only [List.getElem?_cons_succ] at hc
      rw [ih _ c cmd h5 hc]
      simp only [List.take_succ_cons, List.map_cons, List.sum_cons]
      omega

theorem rawBytes_mem_data (desc : Descriptor) (data : List Nat) (stype : SType) :
    ∀ (cmds : List Command) (addr : Nat), Decoded desc data stype addr cmds →
      ∀ cmd ∈ cmds, ∀ b ∈ cmd.args, b ∈ data := by
  intro cmds
  induction cmds with
  | nil => intro addr _ cmd h; simp at h
  | cons x rest ih =>
    intro addr h cmd hcmd b hb
    obtain ⟨_, _, h3, _, h5⟩ := h
    rcases List.mem_cons.mp hcmd with rfl | hrest
    · have hmem : b ∈ cmd.rawBytes := List.mem_cons_of_mem _ hb
      rw [← h3] at hmem
      exact List.mem_of_mem_drop (List.mem_of_mem_take hmem)
    · exact ih _ h5 cmd hrest b hb

theorem decoded_ptr (desc : Descriptor) (data : List Nat) (stype : SType) :
    ∀ (cmds : List Command) (addr : Nat), Decoded desc data stype addr cmds →
      ∀ cmd ∈ cmds, ∀ t, cmd.ptr = some t →
        ∃ d, desc.getDescription cmd.firstByte stype = some d ∧ d.targetSType = some t.2 ∧
          targetAddress d.addressing cmd.args (cmd.address + cmd.length) = some t.1 := by
  intro cmds
  induction cmds with
  | nil => intro addr _ cmd h; simp at h
  | cons x rest ih =>
    intro addr h cmd hcmd t ht
    obtain ⟨h1, _, _, h4, h5⟩ := h
    rcases List.mem_cons.mp hcmd with rfl | hrest
    · rw [h1]
      exact h4 t ht
    · exact ih _ h5 cmd hrest t ht

/-! ## Invariants of the discovery -/

theorem startSection_sections (desc : Descriptor) (data : List Nat) (st : Discovery)
    (addr : Nat) (stype : SType) :
    (startSection desc data st addr stype).2.sections
      = st.sections ++ [(parseSection desc data (st.sections.map Section.address) stype addr).1] :=
  rfl

theorem startSection_ends (desc : Descriptor) (data : List Nat) (st : Discovery)
    (addr : Nat) (stype : SType) :
    (startSection desc data st addr stype).2.ends
      = st.ends ++ [(parseSection desc data (st.sections.map Section.address) stype addr).2] :=
  rfl

/-- Every discovered section starts inside the buffer and is decoded from it. -/
theorem discover_decoded (desc : Descriptor) (data : List Nat)
    (entries : List (Nat × SType)) :
    ∀ sec ∈ (discover desc data entries).sections,
      sec.address < data.length ∧ Decoded desc data sec.stype sec.address sec.commands := by
  apply discover_induction desc data entries
    (fun st => ∀ sec ∈ st.sections,
      sec.address < data.length ∧ Decoded desc data sec.stype sec.address sec.commands)
  · intro st st' hs _ _ h
    rw [hs]
    exact h
  · intro st addr stype _ hlt h sec hsec
    rw [startSection_sections] at hsec
    simp only [List.mem_append, List.mem_singleton] at hsec
    rcases hsec with hsec | rfl
    · exact h sec hsec
    · exact ⟨hlt, parseCommands_decoded desc data _ stype _ addr⟩
  · intro sec hsec
    simp [initialDiscovery] at hsec

/-- Every discovered section is what the decoding from its address gives, with section
boundaries that are starts of discovered sections; how the decoding stopped is among the
recorded endings. -/
theorem discover_ends (desc : Descriptor) (data : List Nat)
    (entries : List (Nat × SType)) :
    ∀ sec ∈ (discover desc data entries).sections,
      ∃ e ∈ (discover desc data entries).ends, ∃ boundaries : List Nat,
        (∀ b ∈ boundaries, ∃ s ∈ (discover desc data entries).sections, s.address = b) ∧
        parseSection desc data boundaries sec.stype sec.address = (sec, e) := by
  apply discover_induction desc data entries
    (fun st => ∀ sec ∈ st.sections, ∃ e ∈ st.ends, ∃ boundaries : List Nat,
      (∀ b ∈ boundaries, ∃ s ∈ st.sections, s.address = b) ∧
      parseSection desc data boundaries sec.stype sec.address = (sec, e))
  · intro st st' hs he _ h
    rw [hs, he]
    exact h
  · intro st addr stype _ _ h sec hsec
    rw [startSection_sections] at hsec ⊢
    rw [startSection_ends]
    simp only [List.mem_append, List.mem_singleton] at hsec
    rcases hsec with hsec | rfl
    · obtain ⟨e, he, B, hB, hparse⟩ := h sec hsec
      refine ⟨e, List.mem_append_left _ he, B, ?_, hparse⟩
      intro b hb
      obtain ⟨s, hs, hsb⟩ := hB b hb
      exact ⟨s, List.mem_append_left _ hs, hsb⟩
    · refine ⟨_, List.mem_append_right _ (List.mem_singleton_self _),
        st.sections.map Section.address, ?_, rfl⟩
      intro b hb
      rw [List.mem_map] at hb
      obtain ⟨s, hs, hsb⟩ := hb
      exact ⟨s, List.mem_append_left _ hs, hsb⟩
  · intro sec hsec
    simp [initialDiscovery] at hsec

/-- Every visited pair has its section. -/
theorem discover_visited (desc : Descriptor) (data : List Nat)
    (entries : List (Nat × SType)) :
    ∀ p ∈ (discover desc data entries).visited,
      ∃ sec ∈ (discover desc data entries).sections, sec.address = p.1 ∧ sec.stype = p.2 := by
  apply discover_induction desc data entries
    (fun st => ∀ p ∈ st.visited, ∃ sec ∈ st.sections, sec.address = p.1 ∧ sec.stype = p.2)
  · intro st st' hs _ hv h
    rw [hs, hv]
    exact h
  · intro st addr stype _ _ h p hp
    rw [startSection_sections]
    rw [startSection_visited] at hp
    rcases List.mem_cons.mp hp with rfl | hp
    · exact ⟨_, List.mem_append_right _ (List.mem_singleton_self _), rfl, rfl⟩
    · obtain ⟨sec, hsec, hs⟩ := h p hp
      exact ⟨sec, List.mem_append_left _ hsec, hs⟩
  · intro p hp
    simp [initialDiscovery] at hp

theorem discoverStep_visited_mono (desc : Descriptor) (data : List Nat)
    (entries : List (Nat × SType)) (st : Discovery) (item : WorkItem) :
    ∀ p ∈ st.visited, p ∈ (discoverStep desc data entries st item).2.visited := by
  intro p hp
  cases item with
  | leave addr stype => exact hp
  | entry addr stype =>
    simp only [discoverStep]
    split
    · exact hp
    · split
      · exact hp
      · exact List.mem_cons_of_mem _ hp
  | target addr stype =>
    simp only [discoverStep]
    split
    · exact hp
    · split
      · exact hp
      · split
        · exact hp
        · split
          · exact hp
          · split
            · exact List.mem_cons_of_mem _ hp
            · exact hp
          · exact List.mem_cons_of_mem _ hp

/-- Every known entry inside the buffer is visited. -/
theorem discover_entries_visited (desc : Descriptor) (data : List Nat)
    (entries : List (Nat × SType)) :
    ∀ e ∈ entries, e.1 < data.length → e ∈ (discover desc data entries).visited := by
  have h := discover_invariant desc data entries
    (fun work st => ∀ e ∈ entries, e.1 < data.length →
      WorkItem.entry e.1 e.2 ∈ work ∨ e ∈ st.visited) ?_ ?_ ?_
  · intro e he hlt
    rcases h e he hlt with h1 | h1
    · simp at h1
    · exact h1
  · intro item rest st hI e he hlt
    rcases hI e he hlt with h1 | h1
    · rcases List.mem_cons.mp h1 with heq | hrest
      · subst heq
        right
        simp only [discoverStep]
        split
        · assumption
        · split
          · omega
          · exact List.mem_cons_self _ _
      · exact Or.inl (List.mem_append_right _ hrest)
    · exact Or.inr (discoverStep_visited_mono desc data entries st item e h1)
  · intro st h
    exact h
  · intro e he _
    left
    simp only [entryItems, List.mem_map]
    exact ⟨e, he, rfl⟩

/-- Every known entry inside the buffer has its section. -/
theorem discover_entries_section (desc : Descriptor) (data : List Nat)
    (entries : List (Nat × SType)) :
    ∀ e ∈ entries, e.1 < data.length →
      ∃ sec ∈ (discover desc data entries).sections, sec.address = e.1 ∧ sec.stype = e.2 :=
  fun e he hlt =>
    discover_visited desc data entries e (discover_entries_visited desc data entries e he hlt)

/-! ## A reference to the own section from inside the section -/

theorem leavePair_innerTargets (parsed : Section × SectionEnd) :
    (innerTargets parsed).filterMap WorkItem.leavePair = [] := by
  unfold innerTargets
  rw [List.filterMap_map]
  apply List.filterMap_eq_nil_iff.mpr
  intro t _
  rfl

theorem leavePair_finalTarget (parsed : Section × SectionEnd) :
    (finalTarget parsed).filterMap WorkItem.leavePair = [] := by
  unfold finalTarget
  split
  · split <;> rfl
  · rfl

theorem leavePair_startSection (desc : Descriptor) (data : List Nat) (st : Discovery)
    (addr : Nat) (stype : SType) (rest : List WorkItem) :
    ((startSection desc data st addr stype).1 ++ rest).filterMap WorkItem.leavePair
      = (addr, stype) :: rest.filterMap WorkItem.leavePair := by
  simp only [startSection, List.filterMap_append, List.filterMap_cons, WorkItem.leavePair,
    leavePair_innerTargets, leavePair_finalTarget, List.nil_append, List.append_nil,
    List.singleton_append]

/-- A command that is no terminator and holds a reference is among the inner targets of its
section. -/
theorem mem_innerTargets (desc : Descriptor) (data : List Nat) (boundaries : List Nat)
    (stype : SType) (address : Nat) (cmd : Command) (d : CommandDescription) (t : Nat × SType)
    (hcmd : cmd ∈ (parseSection desc data boundaries stype address).1.commands)
    (hd : desc.getDescription cmd.firstByte stype = some d) (hterm : d.terminator = false)
    (hptr : cmd.ptr = some t) :
    WorkItem.target t.1 t.2 ∈ innerTargets (parseSection desc data boundaries stype address) := by
  unfold innerTargets
  rw [List.mem_map]
  refine ⟨t, ?_, rfl⟩
  rw [List.mem_filterMap]
  refine ⟨cmd, ?_, hptr⟩
  split
  · rename_i hend
    obtain ⟨c, d', hlast, hd', hterm'⟩ :=
      parseCommands_terminator desc data boundaries stype _ address hend
    have hsplit := List.dropLast_append_getLast? c hlast
    have hcmd' : cmd ∈ (parseSection desc data boundaries stype address).1.commands := hcmd
    have hcmds : (parseSection desc data boundaries stype address).1.commands
        = (parseCommands desc data boundaries stype (data.length - address) address).1 := rfl
    rw [hcmds, ← hsplit] at hcmd'
    rcases List.mem_append.mp hcmd' with h1 | h1
    · exact h1
    · simp only [List.mem_singleton] at h1
      subst h1
      rw [hd] at hd'
      simp only [Option.some.injEq] at hd'
      subst hd'
      rw [hterm] at hterm'
      cases hterm'
  · exact hcmd

theorem selfCallPending_tail (item : WorkItem) (rest : List WorkItem) (sec : Section)
    (h : SelfCallPending (item :: rest) sec)
    (hne : item = WorkItem.target sec.address sec.stype →
      WorkItem.leave sec.address sec.stype ∉ rest) :
    SelfCallPending rest sec := by
  obtain ⟨pre, post, hwork, hleave⟩ := h
  cases pre with
  | nil =>
    simp only [List.nil_append, List.cons.injEq] at hwork
    obtain ⟨h1, h2⟩ := hwork
    subst h2
    exact absurd hleave (hne h1)
  | cons x pre' =>
    simp only [List.cons_append, List.cons.injEq] at hwork
    exact ⟨pre', post, hwork.2, hleave⟩

theorem selfCallPending_append (new rest : List WorkItem) (sec : Section)
    (h : SelfCallPending rest sec) : SelfCallPending (new ++ rest) sec := by
  obtain ⟨pre, post, hwork, hleave⟩ := h
  exact ⟨new ++ pre, post, by rw [hwork, List.append_assoc], hleave⟩

theorem selfCallPending_startSection (desc : Descriptor) (data : List Nat) (st : Discovery)
    (addr : Nat) (stype : SType) (rest : List WorkItem)
    (h : HasSelfCall desc (parseSection desc data (st.sections.map Section.address) stype addr).1) :
    SelfCallPending ((startSection desc data st addr stype).1 ++ rest)
      (parseSection desc data (st.sections.map Section.address) stype addr).1 := by
  obtain ⟨cmd, hcmd, d, hd, hterm, hptr⟩ := h
  have hmem := mem_innerTargets desc data _ stype addr cmd d (addr, stype) hcmd hd hterm hptr
  obtain ⟨i1, i2, hsplit⟩ := List.append_of_mem hmem
  refine ⟨i1, i2 ++ WorkItem.leave addr stype ::
    (finalTarget (parseSection desc data (st.sections.map Section.address) stype addr) ++ rest),
    ?_, ?_⟩
  · simp only [startSection]
    rw [hsplit]
    simp [parseSection]
  · simp [parseSection]

theorem selfCallInvariant_startSection (desc : Descriptor) (data : List Nat) (st : Discovery)
    (addr : Nat) (stype : SType) (item : WorkItem) (rest : List WorkItem)
    (hitem : item.leavePair = none)
    (hI : SelfCallInvariant desc (item :: rest) st)
    (hne : ∀ sec ∈ st.sections, SelfCallPending (item :: rest) sec →
      SelfCallPending rest sec) :
    SelfCallInvariant desc ((startSection desc data st addr stype).1 ++ rest)
      (startSection desc data st addr stype).2 := by
  obtain ⟨hK, hJ⟩ := hI
  refine ⟨?_, ?_⟩
  · rw [leavePair_startSection]
    simp only [List.filterMap_cons, hitem] at hK
    simp only [startSection, hK]
  · rcases hJ with hrec | hpend
    · exact Or.inl hrec
    · right
      intro sec hsec hcall
      rw [startSection_sections] at hsec
      simp only [List.mem_append, List.mem_singleton] at hsec
      rcases hsec with hsec | rfl
      · exact selfCallPending_append _ rest sec (hne sec hsec (hpend sec hsec hcall))
      · exact selfCallPending_startSection desc data st addr stype rest hcall

theorem selfCallInvariant_same (desc : Descriptor) (st st' : Discovery) (item : WorkItem)
    (rest : List WorkItem) (hitem : item.leavePair = none)
    (hsec : st'.sections = st.sections) (hact : st'.active = st.active)
    (hrec : st.recursion = true → st'.recursion = true)
    (hI : SelfCallInvariant desc (item :: rest) st)
    (hne : ∀ sec ∈ st.sections, SelfCallPending (item :: rest) sec →
      SelfCallPending rest sec) :
    SelfCallInvariant desc rest st' := by
  obtain ⟨hK, hJ⟩ := hI
  refine ⟨?_, ?_⟩
  · simp only [List.filterMap_cons, hitem] at hK
    rw [hact]
    exact hK
  · rcases hJ with h | hpend
    · exact Or.inl (hrec h)
    · right
      intro sec hs hcall
      rw [hsec] at hs
      exact hne sec hs (hpend sec hs hcall)

theorem selfCallInvariant_step (desc : Descriptor) (data : List Nat)
    (entries : List (Nat × SType)) (item : WorkItem) (rest : List WorkItem) (st : Discovery)
    (hI : SelfCallInvariant desc (item :: rest) st) :
    SelfCallInvariant desc ((discoverStep desc data entries st item).1 ++ rest)
      (discoverStep desc data entries st item).2 := by
  cases item with
  | leave addr stype =>
    obtain ⟨hK, hJ⟩ := hI
    simp only [List.filterMap_cons, WorkItem.leavePair] at hK
    refine ⟨?_, ?_⟩
    · simp only [discoverStep, List.nil_append, ← hK, List.erase_cons_head]
    · rcases hJ with h | hpend
      · exact Or.inl h
      · right
        intro sec hs hcall
        exact selfCallPending_tail _ rest sec (hpend sec hs hcall) (fun h => by cases h)
  | entry addr stype =>
    have hne : ∀ sec ∈ st.sections, SelfCallPending (WorkItem.entry addr stype :: rest) sec →
        SelfCallPending rest sec :=
      fun sec _ h => selfCallPending_tail _ rest sec h (fun h => by cases h)
    simp only [discoverStep]
    split
    · exact selfCallInvariant_same desc st st (WorkItem.entry addr stype) rest rfl rfl rfl id hI hne
    · split
      · exact selfCallInvariant_same desc st _ (WorkItem.entry addr stype)
          rest rfl rfl rfl id hI hne
      · exact selfCallInvariant_startSection desc data st addr stype (WorkItem.entry addr stype)
          rest rfl hI hne
  | target addr stype =>
    simp only [discoverStep]
    split
    · -- the pair is on the active call stack
      obtain ⟨hK, _⟩ := hI
      simp only [List.filterMap_cons, WorkItem.leavePair] at hK
      exact ⟨by simpa using hK, Or.inl rfl⟩
    · rename_i hact
      have hne : ∀ sec ∈ st.sections,
          SelfCallPending (WorkItem.target addr stype :: rest) sec →
          SelfCallPending rest sec := by
        intro sec _ h
        apply selfCallPending_tail _ rest sec h
        intro heq hleave
        simp only [WorkItem.target.injEq] at heq
        obtain ⟨rfl, rfl⟩ := heq
        apply hact
        rw [← hI.1]
        simp only [List.filterMap_cons, WorkItem.leavePair, List.mem_filterMap]
        exact ⟨_, hleave, rfl⟩
      split
      · exact selfCallInvariant_same desc st _ (WorkItem.target addr stype)
          rest rfl rfl rfl id hI hne
      · split
        · exact selfCallInvariant_same desc st _ (WorkItem.target addr stype)
            rest rfl rfl rfl id hI hne
        · split
          · exact selfCallInvariant_same desc st st (WorkItem.target addr stype)
              rest rfl rfl rfl id hI hne
          · split
            · exact selfCallInvariant_startSection desc data st addr stype
                (WorkItem.target addr stype)
                rest rfl hI hne
            · exact selfCallInvariant_same desc st _ (WorkItem.target addr stype)
                rest rfl rfl rfl id hI hne
          · exact selfCallInvariant_startSection desc data st addr stype
              (WorkItem.target addr stype)
              rest rfl hI hne

/-- A discovered section that calls itself makes the discovery meet a visit on the active
call stack. -/
theorem discover_selfCall (desc : Descriptor) (data : List Nat)
    (entries : List (Nat × SType)) (sec : Section)
    (hsec : sec ∈ (discover desc data entries).sections) (hcall : HasSelfCall desc sec) :
    (discover desc data entries).recursion = true := by
  have h := discover_invariant desc data entries (SelfCallInvariant desc)
    (fun item rest st hI => selfCallInvariant_step desc data entries item rest st hI)
    (fun st hI => hI) ?_
  · rcases h.2 with hrec | hpend
    · exact hrec
    · obtain ⟨pre, post, hwork, _⟩ := hpend sec hsec hcall
      simp at hwork
  · refine ⟨?_, Or.inr ?_⟩
    · simp only [entryItems, initialDiscovery]
      rw [List.filterMap_map]
      apply List.filterMap_eq_nil_iff.mpr
      intro e _
      rfl
    · intro sec hs
      simp [initialDiscovery] at hs

/-! ## The result code -/

theorem importCom_code_le (desc : Descriptor) (data : List Nat)
    (entries : List (Nat × SType)) : (importCom desc data entries).code ≤ 2 := by
  unfold importCom
  simp only
  split
  · omega
  · split <;> omega

theorem importCom_code_fatal (desc : Descriptor) (data : List Nat)
    (entries : List (Nat × SType)) :
    2 ≤ (importCom desc data entries).code ↔
      ((discover desc data entries).ends.any SectionEnd.isError = true
        ∨ (discover desc data entries).outside = true
        ∨ (discover desc data entries).recursion = true
        ∨ (discover desc data entries).escape = true
        ∨ hasUnresolved (discoveredGraph desc data entries) = true
        ∨ hasOverlap (discoveredGraph desc data entries) = true) := by
  unfold importCom
  simp only [discover_complete, Bool.not_true, Bool.false_or]
  constructor
  · intro h
    split at h
    · rename_i hf
      simpa [Bool.or_eq_true, or_assoc] using hf
    · split at h <;> omega
  · intro h
    have hf : ((discover desc data entries).ends.any SectionEnd.isError
        || (discover desc data entries).outside
        || (discover desc data entries).recursion
        || (discover desc data entries).escape
        || hasUnresolved (discoveredGraph desc data entries)
        || hasOverlap (discoveredGraph desc data entries)) = true := by
      simpa [Bool.or_eq_true, or_assoc] using h
    rw [if_pos hf]

/-- With a result code below 2 the code is 1 exactly when a warning was met: a loop closure
or dead bytes. -/
theorem importCom_code_warning (desc : Descriptor) (data : List Nat)
    (entries : List (Nat × SType)) (h : (importCom desc data entries).code < 2) :
    (importCom desc data entries).code = 1 ↔
      ((discover desc data entries).loopClosure = true
        ∨ hasDeadBytes data (discoveredGraph desc data entries) = true) := by
  unfold importCom at h ⊢
  simp only at h ⊢
  split at h
  · omega
  · rename_i hf
    simp only [hf, Bool.false_eq_true, ↓reduceIte]
    constructor
    · intro h1
      split at h1
      · rename_i hw
        simpa [Bool.or_eq_true] using hw
      · omega
    · intro hw
      have hw' : ((discover desc data entries).loopClosure
          || hasDeadBytes data (discoveredGraph desc data entries)) = true := by
        simpa [Bool.or_eq_true] using hw
      rw [if_pos hw']

/-- A section whose decoding stopped with an illegal opcode makes the result fatal. -/
theorem importCom_code_of_illegal (desc : Descriptor) (data : List Nat)
    (entries : List (Nat × SType))
    (h : SectionEnd.illegalOpcode ∈ (discover desc data entries).ends) :
    2 ≤ (importCom desc data entries).code := by
  rw [importCom_code_fatal]
  left
  rw [List.any_eq_true]
  exact ⟨_, h, rfl⟩

/-- An illegal opcode after a command of a discovered section makes the result fatal. -/
theorem importCom_illegal_after (desc : Descriptor) (data : List Nat)
    (entries : List (Nat × SType)) (sec : Section) (cmd : Command) (d : CommandDescription)
    (b : Nat) (hsec : sec ∈ (discover desc data entries).sections) (hcmd : cmd ∈ sec.commands)
    (hd : desc.getDescription cmd.firstByte sec.stype = some d) (hterm : d.terminator = false)
    (hbound : ∀ s ∈ (discover desc data entries).sections,
      s.address ≠ cmd.address + cmd.length)
    (hb : data[cmd.address + cmd.length]? = some b)
    (hillegal : desc.getDescription b sec.stype = none) :
    2 ≤ (importCom desc data entries).code := by
  obtain ⟨e, he, B, hB, hparse⟩ := discover_ends desc data entries sec hsec
  have hnot : cmd.address + cmd.length ∉ B := by
    intro hmem
    obtain ⟨s, hs, hsb⟩ := hB _ hmem
    exact hbound s hs hsb
  have hcmd' : cmd ∈ (parseSection desc data B sec.stype sec.address).1.commands := by
    rw [hparse]
    exact hcmd
  have h := parseSection_illegal_after desc data B sec.stype sec.address cmd d b hcmd' hd hterm
    hnot hb hillegal
  rw [hparse] at h
  simp only at h
  subst h
  exact importCom_code_of_illegal desc data entries he

/-- A discovered section from whose start a run of legal commands leads to an illegal
opcode, with no start of a discovered section on the way, makes the result fatal. -/
theorem importCom_illegal_run (desc : Descriptor) (data : List Nat)
    (entries : List (Nat × SType)) (sec : Section) (n b x : Nat)
    (hsec : sec ∈ (discover desc data entries).sections)
    (hrun : LegalRun desc data sec.stype n sec.address b)
    (hbound : ∀ s ∈ (discover desc data entries).sections,
      ¬ (sec.address < s.address ∧ s.address ≤ b))
    (hb : data[b]? = some x) (hillegal : desc.getDescription x sec.stype = none) :
    2 ≤ (importCom desc data entries).code := by
  obtain ⟨e, he, B, hB, hparse⟩ := discover_ends desc data entries sec hsec
  have hB' : ∀ bd ∈ B, ¬ (sec.address < bd ∧ bd ≤ b) := by
    intro bd hbd
    obtain ⟨s, hs, hsb⟩ := hB bd hbd
    rw [← hsb]
    exact hbound s hs
  have h := parseCommands_legalRun desc data B sec.stype b x hb hillegal n
    (data.length - sec.address) sec.address hrun hB' (Nat.le_refl _)
  have he' : e = (parseCommands desc data B sec.stype (data.length - sec.address)
      sec.address).2 := by
    have := congrArg Prod.snd hparse
    exact this.symm
  rw [importCom_code_fatal]
  left
  rw [List.any_eq_true]
  exact ⟨e, he, by rw [he']; exact h⟩

/-! ## Unresolved references -/

theorem findTargetCommandFrom_some (tgt_addr : Nat) (tgt_stype : SType) :
    ∀ (l : List Section) (s0 s c : Nat),
      findTargetCommandFrom tgt_addr tgt_stype l s0 = some (s, c) →
      ∃ sec ∈ l, sec.stype = tgt_stype ∧ ∃ cmd ∈ sec.commands, cmd.address = tgt_addr := by
  intro l
  induction l with
  | nil => intro s0 s c h; simp [findTargetCommandFrom] at h
  | cons sec rest ih =>
    intro s0 s c h
    unfold findTargetCommandFrom at h
    split at h
    · rename_i hk
      split at h
      · rename_i c' hfind
        unfold findCommandAt at hfind
        rw [List.findIdx?_eq_some_iff_getElem] at hfind
        obtain ⟨hlt, hp, _⟩ := hfind
        refine ⟨sec, List.mem_cons_self _ _, hk, sec.commands[c'], List.getElem_mem _, ?_⟩
        simpa using hp
      · obtain ⟨sec', hs, hc⟩ := ih _ _ _ h
        exact ⟨sec', List.mem_cons_of_mem _ hs, hc⟩
    · obtain ⟨sec', hs, hc⟩ := ih _ _ _ h
      exact ⟨sec', List.mem_cons_of_mem _ hs, hc⟩

theorem mem_sortSections (l : List Section) (sec : Section) :
    sec ∈ sortSections l ↔ sec ∈ l :=
  List.mem_insertionSort _

/-- A reference whose target is no command of a discovered section of the target kind is an
unresolved reference of the graph. -/
theorem hasUnresolved_of_no_target (desc : Descriptor) (data : List Nat)
    (entries : List (Nat × SType)) (sec : Section) (cmd : Command) (t : Nat × SType)
    (hsec : sec ∈ (discover desc data entries).sections) (hcmd : cmd ∈ sec.commands)
    (hptr : cmd.ptr = some t)
    (hno : ∀ s ∈ (discover desc data entries).sections, s.stype = t.2 →
      ∀ c ∈ s.commands, c.address ≠ t.1) :
    hasUnresolved (discoveredGraph desc data entries) = true := by
  have hnone : findTargetCommand (sortSections (discover desc data entries).sections) t.1 t.2
      = none := by
    cases hf : findTargetCommand (sortSections (discover desc data entries).sections)
        t.1 t.2 with
    | none => rfl
    | some r =>
      obtain ⟨s', hs', hk, c', hc', haddr⟩ := findTargetCommandFrom_some t.1 t.2 _ 0 r.1 r.2 hf
      exact absurd haddr (hno s' ((mem_sortSections _ _).mp hs') hk c' hc')
  unfold hasUnresolved discoveredGraph resolveReferences
  rw [List.any_eq_true]
  refine ⟨_, List.mem_map_of_mem _ ((mem_sortSections _ _).mpr hsec), ?_⟩
  rw [List.any_eq_true]
  refine ⟨_, List.mem_map_of_mem _ hcmd, ?_⟩
  simp [resolveCommand, hptr, hnone, getSectionAndCmd]

/-! ## Overlapping sections -/

theorem hasOverlap_false (l : List Section) (h : hasOverlap l = false) :
    l.Pairwise (fun a b => overlaps a b = false) := by
  induction l with
  | nil => exact List.Pairwise.nil
  | cons x rest ih =>
    simp only [hasOverlap, Bool.or_eq_false_iff] at h
    rw [List.pairwise_cons]
    refine ⟨?_, ih h.2⟩
    intro b hb
    have := List.any_eq_false.mp h.1 b hb
    simpa using this

theorem overlaps_comm (a b : Section) : overlaps a b = overlaps b a := by
  unfold overlaps
  rw [Bool.and_comm]

theorem resolved_byteLength (l : List Section) (sec : Section) :
    ({ sec with commands := sec.commands.map (resolveCommand l) } : Section).byteLength
      = sec.byteLength := by
  simp only [Section.byteLength, List.map_map]
  congr 1

theorem overlaps_resolved (l : List Section) (a b : Section) :
    overlaps { a with commands := a.commands.map (resolveCommand l) }
        { b with commands := b.commands.map (resolveCommand l) }
      = overlaps a b := by
  simp only [overlaps, Section.addressEnd, resolved_byteLength]

/-- Two discovered sections whose byte ranges intersect are overlapping sections of the
graph. -/
theorem hasOverlap_of_intersect (desc : Descriptor) (data : List Nat)
    (entries : List (Nat × SType)) (i j : Nat) (a b : Section) (hij : i ≠ j)
    (ha : (discover desc data entries).sections[i]? = some a)
    (hb : (discover desc data entries).sections[j]? = some b)
    (h1 : a.address < b.addressEnd) (h2 : b.address < a.addressEnd) :
    hasOverlap (discoveredGraph desc data entries) = true := by
  by_contra hne
  have hfalse : hasOverlap (discoveredGraph desc data entries) = false := by
    cases h : hasOverlap (discoveredGraph desc data entries) with
    | false => rfl
    | true => exact absurd h hne
  have hp := hasOverlap_false _ hfalse
  unfold discoveredGraph resolveReferences at hp
  rw [List.pairwise_map] at hp
  have hp' : (sortSections (discover desc data entries).sections).Pairwise
      (fun x y => overlaps x y = false) := by
    apply List.Pairwise.imp _ hp
    intro x y hxy
    rw [overlaps_resolved] at hxy
    exact hxy
  have hsymm : Symmetric (fun x y : Section => overlaps x y = false) := by
    intro x y hxy
    rw [overlaps_comm]
    exact hxy
  have hperm : List.Perm (sortSections (discover desc data entries).sections)
      (discover desc data entries).sections := List.perm_insertionSort _ _
  have hp'' := (List.Perm.pairwise_iff (fun {x y} hxy => hsymm hxy) hperm).mp hp'
  rw [List.pairwise_iff_getElem] at hp''
  have hov : overlaps a b = true := by
    simp [overlaps, h1, h2]
  have hi : i < (discover desc data entries).sections.length := by
    by_contra hge
    rw [List.getElem?_eq_none (by omega)] at ha
    cases ha
  have hj : j < (discover desc data entries).sections.length := by
    by_contra hge
    rw [List.getElem?_eq_none (by omega)] at hb
    cases hb
  rw [List.getElem?_eq_getElem hi] at ha
  rw [List.getElem?_eq_getElem hj] at hb
  simp only [Option.some.injEq] at ha hb
  rcases Nat.lt_or_gt_of_ne hij with hlt | hgt
  · have := hp'' i j hi hj hlt
    rw [ha, hb, hov] at this
    cases this
  · have := hp'' j i hj hi hgt
    rw [ha, hb, overlaps_comm, hov] at this
    cases this

/-! ## A found target is present -/

theorem byteLength_pos_of_ne_nil (sec : Section) (h : sec.commands ≠ []) :
    0 < sec.byteLength := by
  unfold Section.byteLength
  cases hc : sec.commands with
  | nil => exact absurd hc h
  | cons x xs =>
    simp only [List.map_cons, List.sum_cons]
    have := command_length_pos x
    omega

theorem byteLength_eq_zero_of_nil (sec : Section) (h : sec.commands = []) :
    sec.byteLength = 0 := by
  simp [Section.byteLength, h]

theorem tiles_head (desc : Descriptor) (data : List Nat) (pos : Nat) (sec : Section)
    (rest : List Section) (h : Tiles desc data pos (sec :: rest)) (hpos : 0 < sec.byteLength) :
    sec.address = pos := by
  obtain ⟨hs, _, hd, hc, hp, _⟩ := h
  have h1 : pos ≤ sec.address := hp sec (List.mem_cons_self _ _) hpos
  by_contra hne
  have hlt : pos < sec.address := by omega
  have hsec := (hd sec (List.mem_cons_self _ _)).1
  obtain ⟨s', hs', ha, hb⟩ := hc pos (Nat.le_refl _) (by omega)
  have hs'pos : 0 < s'.byteLength := by
    unfold Section.addressEnd at hb
    omega
  have h2 : pos ≤ s'.address := hp s' hs' hs'pos
  rcases List.mem_cons.mp hs' with rfl | hrest
  · omega
  · have := (List.pairwise_cons.mp hs).1 s' hrest
    omega

theorem tiles_tail (desc : Descriptor) (data : List Nat) (pos : Nat) (sec : Section)
    (rest : List Section) (h : Tiles desc data pos (sec :: rest)) :
    Tiles desc data (pos + sec.byteLength) rest := by
  have hhead := tiles_head desc data pos sec rest h
  obtain ⟨hs, ho, hd, hc, hp, hn⟩ := h
  have hsec := hd sec (List.mem_cons_self _ _)
  have hend : sec.address + sec.byteLength ≤ data.length :=
    (decoded_rawBytes desc data sec.stype sec.commands sec.address (by omega) hsec.2).1
  refine ⟨(List.pairwise_cons.mp hs).2, (List.pairwise_cons.mp ho).2,
    fun s hs' => hd s (List.mem_cons_of_mem _ hs'), ?_, ?_, ?_⟩
  · intro p hp1 hp2
    obtain ⟨s', hs', ha, hb⟩ := hc p (by omega) hp2
    rcases List.mem_cons.mp hs' with rfl | hrest
    · exfalso
      unfold Section.addressEnd at hb
      by_cases hz : 0 < s'.byteLength
      · have := hhead hz
        omega
      · omega
    · exact ⟨s', hrest, ha, hb⟩
  · intro s' hs' hs'pos
    by_cases hz : 0 < sec.byteLength
    · have haddr := hhead hz
      have hle := (List.pairwise_cons.mp hs).1 s' hs'
      have hov := (List.pairwise_cons.mp ho).1 s' hs'
      unfold overlaps Section.addressEnd at hov
      simp only [Bool.and_eq_false_imp, decide_eq_true_eq, decide_eq_false_iff_not] at hov
      have := hov (by omega)
      omega
    · have h0 : sec.byteLength = 0 := by omega
      rw [h0, Nat.add_zero]
      exact hp s' (List.mem_cons_of_mem _ hs') hs'pos
  · by_cases hz : 0 < sec.byteLength
    · have haddr := hhead hz
      omega
    · omega

theorem tiles_nil (desc : Descriptor) (data : List Nat) (pos : Nat)
    (h : Tiles desc data pos []) : pos = data.length := by
  obtain ⟨_, _, _, hc, _, hn⟩ := h
  by_contra hne
  obtain ⟨s, hs, _⟩ := hc pos (Nat.le_refl _) (by omega)
  simp at hs

/-- In a tiling every section with commands is placed at its own address. -/
theorem tiles_base (desc : Descriptor) (data : List Nat) :
    ∀ (l : List Section) (pos : Nat), Tiles desc data pos l →
      ∀ (j : Nat) (sec : Section), l[j]? = some sec → 0 < sec.byteLength →
        pos + ((l.take j).map Section.byteLength).sum = sec.address := by
  intro l
  induction l with
  | nil => intro pos _ j sec h; simp at h
  | cons x rest ih =>
    intro pos h j sec hj hpos
    cases j with
    | zero =>
      simp only [List.getElem?_cons_zero, Option.some.injEq] at hj
      subst hj
      simp [tiles_head desc data pos x rest h hpos]
    | succ j =>
      simp only [List.getElem?_cons_succ] at hj
      have := ih (pos + x.byteLength) (tiles_tail desc data pos x rest h) j sec hj hpos
      simp only [List.take_succ_cons, List.map_cons, List.sum_cons]
      omega

theorem writeCommands_decoded (desc : Descriptor) (data : List Nat) (stype : SType)
    (g : List Section) : ∀ (cmds : List Command) (addr : Nat),
      Decoded desc data stype addr cmds →
      (∀ cmd ∈ cmds, writeCommand desc g stype cmd.address cmd = (cmd.rawBytes, true)) →
      writeCommands desc g stype addr cmds = (cmds.flatMap Command.rawBytes, true) := by
  intro cmds
  induction cmds with
  | nil => intro addr _ _; rfl
  | cons c rest ih =>
    intro addr h hw
    obtain ⟨h1, _, _, _, h5⟩ := h
    have hc := hw c (List.mem_cons_self _ _)
    rw [h1] at hc
    simp only [writeCommands, hc, ih _ h5 (fun cmd hcmd => hw cmd (List.mem_cons_of_mem _ hcmd)),
      List.flatMap_cons, Bool.and_self]

/-- Writing the sections of a tiling gives back the buffer. -/
theorem tiles_write (desc : Descriptor) (data : List Nat) (g : List Section) :
    ∀ (l : List Section) (pos : Nat), Tiles desc data pos l →
      (∀ sec ∈ l, ∀ cmd ∈ sec.commands,
        writeCommand desc g sec.stype cmd.address cmd = (cmd.rawBytes, true)) →
      writeSections desc g pos l = (data.drop pos, true) := by
  intro l
  induction l with
  | nil =>
    intro pos h _
    rw [tiles_nil desc data pos h]
    simp [writeSections]
  | cons x rest ih =>
    intro pos h hw
    have htail := ih (pos + x.byteLength) (tiles_tail desc data pos x rest h)
      (fun sec hsec => hw sec (List.mem_cons_of_mem _ hsec))
    have hx := h.2.2.1 x (List.mem_cons_self _ _)
    simp only [writeSections, htail, Bool.and_true]
    cases hc : x.commands with
    | nil =>
      have h0 := byteLength_eq_zero_of_nil x hc
      simp [writeCommands, h0]
    | cons c cs =>
      have hpos : 0 < x.byteLength := byteLength_pos_of_ne_nil x (by simp [hc])
      have haddr := tiles_head desc data pos x rest h hpos
      have hdec := hx.2
      rw [haddr] at hdec
      have hwr := writeCommands_decoded desc data x.stype g x.commands pos hdec
        (hw x (List.mem_cons_self _ _))
      have hraw := (decoded_rawBytes desc data x.stype x.commands pos h.2.2.2.2.2 hdec).2
      rw [← hc, hwr, hraw]
      simp only [Prod.mk.injEq, and_true]
      have : (x.commands.map Command.length).sum = x.byteLength := rfl
      rw [this]
      conv_rhs => rw [← List.take_append_drop x.byteLength (data.drop pos)]
      rw [List.drop_drop]

/-! ## The reference field -/

theorem fieldValue_append (init : List Nat) (b : Nat) :
    fieldValue (init ++ [b]) = fieldValue init * 256 + b := by
  simp [fieldValue, List.foldl_append]

/-- Writing the value of a field of bytes gives the bytes back, and the value fits the
width of the field. -/
theorem fieldBytes_fieldValue (args : List Nat) (hbytes : ∀ b ∈ args, b < 256) :
    fieldValue args < 256 ^ args.length ∧ fieldBytes args.length (fieldValue args) = args := by
  induction args using List.reverseRecOn with
  | nil => simp [fieldValue, fieldBytes]
  | append_singleton init b ih =>
    have hb : b < 256 := hbytes b (by simp)
    obtain ⟨ih1, ih2⟩ := ih (fun x hx => hbytes x (by simp [hx]))
    rw [fieldValue_append]
    simp only [List.length_append, List.length_singleton, fieldBytes]
    refine ⟨?_, ?_⟩
    · rw [Nat.pow_succ]
      omega
    · have h1 : (fieldValue init * 256 + b) / 256 = fieldValue init := by omega
      have h2 : (fieldValue init * 256 + b) % 256 = b := by omega
      rw [h1, h2, ih2]

/-- The encoding of a reference inverts its decoding: the field that `getPtrAddress` gives
for the target address that a field of bytes yields is that field. -/
theorem getPtrAddress_targetAddress (mode : AddressingMode) (args : List Nat) (next t : Nat)
    (hbytes : ∀ b ∈ args, b < 256) (h : targetAddress mode args next = some t) :
    getPtrAddress mode args.length t next = some args := by
  obtain ⟨hlt, hfield⟩ := fieldBytes_fieldValue args hbytes
  cases mode with
  | absolute =>
    simp only [targetAddress, Option.some.injEq] at h
    subst h
    simp only [getPtrAddress, hlt, ↓reduceIte, hfield]
  | relative =>
    simp only [targetAddress] at h
    split at h
    · rename_i hsmall
      simp only [Option.some.injEq] at h
      subst h
      have h1 : next ≤ next + fieldValue args := by omega
      have h2 : next + fieldValue args - next = fieldValue args := by omega
      simp only [getPtrAddress, h1, ↓reduceIte, h2, hsmall, hfield]
    · rename_i hbig
      split at h
      · rename_i hge
        simp only [Option.some.injEq] at h
        subst h
        have h1 : ¬ next ≤ next + fieldValue args - 256 ^ args.length := by omega
        have h2 : next - (next + fieldValue args - 256 ^ args.length)
            = 256 ^ args.length - fieldValue args := by omega
        have h3 : 2 * (256 ^ args.length - fieldValue args) ≤ 256 ^ args.length := by omega
        have h4 : 256 ^ args.length - (256 ^ args.length - fieldValue args)
            = fieldValue args := by omega
        simp only [getPtrAddress, h1, ↓reduceIte, h2, h3, h4, hfield]
      · cases h

theorem findTargetCommandFrom_address (tgt_addr : Nat) (tgt_stype : SType) :
    ∀ (l : List Section) (s0 s c : Nat),
      findTargetCommandFrom tgt_addr tgt_stype l s0 = some (s, c) →
      s0 ≤ s ∧ ∃ sec cmd, l[s - s0]? = some sec ∧ sec.commands[c]? = some cmd ∧
        cmd.address = tgt_addr := by
  intro l
  induction l with
  | nil => intro s0 s c h; simp [findTargetCommandFrom] at h
  | cons sec rest ih =>
    intro s0 s c h
    unfold findTargetCommandFrom at h
    have hrec : findTargetCommandFrom tgt_addr tgt_stype rest (s0 + 1) = some (s, c) →
        s0 ≤ s ∧ ∃ sec' cmd, (sec :: rest)[s - s0]? = some sec' ∧
          sec'.commands[c]? = some cmd ∧ cmd.address = tgt_addr := by
      intro h'
      obtain ⟨hle, sec', cmd, hsec', hc⟩ := ih _ _ _ h'
      refine ⟨by omega, sec', cmd, ?_, hc⟩
      have : s - s0 = (s - (s0 + 1)) + 1 := by omega
      rw [this, List.getElem?_cons_succ]
      exact hsec'
    split at h
    · split at h
      · rename_i c' hfind
        simp only [Option.some.injEq, Prod.mk.injEq] at h
        obtain ⟨rfl, rfl⟩ := h
        unfold findCommandAt at hfind
        rw [List.findIdx?_eq_some_iff_getElem] at hfind
        obtain ⟨hlt, hp, _⟩ := hfind
        refine ⟨Nat.le_refl _, sec, sec.commands[c'], by simp, ?_, by simpa using hp⟩
        exact List.getElem?_eq_getElem hlt
      · exact hrec h
    · exact hrec h

/-! ## The round trip -/

theorem resolveReferences_getElem? (l : List Section) (s : Nat) :
    (resolveReferences l)[s]? = l[s]?.map (fun sec =>
      { sec with commands := sec.commands.map (resolveCommand l) }) := by
  simp [resolveReferences]

theorem sortSections_pairwise (l : List Section) :
    (sortSections l).Pairwise (fun a b => a.address ≤ b.address) := by
  haveI : IsTotal Section (fun a b => a.address ≤ b.address) :=
    ⟨fun a b => Nat.le_total a.address b.address⟩
  haveI : IsTrans Section (fun a b => a.address ≤ b.address) :=
    ⟨fun _ _ _ hab hbc => Nat.le_trans hab hbc⟩
  exact List.sorted_insertionSort (fun a b : Section => a.address ≤ b.address) l

theorem importCom_code_zero (desc : Descriptor) (data : List Nat)
    (entries : List (Nat × SType)) (h : (importCom desc data entries).code = 0) :
    hasUnresolved (discoveredGraph desc data entries)
      = false ∧
    hasOverlap (discoveredGraph desc data entries)
      = false ∧
    hasDeadBytes data (discoveredGraph desc data entries)
      = false := by
  have hnot : ¬ 2 ≤ (importCom desc data entries).code := by omega
  rw [importCom_code_fatal] at hnot
  have h1 : hasUnresolved (discoveredGraph desc data entries) = false := by
    cases hu : hasUnresolved (discoveredGraph desc data entries) with
    | false => rfl
    | true => exact absurd (Or.inr (Or.inr (Or.inr (Or.inr (Or.inl hu))))) hnot
  have h2 : hasOverlap (discoveredGraph desc data entries) = false := by
    cases ho : hasOverlap (discoveredGraph desc data entries) with
    | false => rfl
    | true => exact absurd (Or.inr (Or.inr (Or.inr (Or.inr (Or.inr ho))))) hnot
  refine ⟨h1, h2, ?_⟩
  cases hd : hasDeadBytes data (discoveredGraph desc data entries) with
  | false => rfl
  | true =>
    exfalso
    have hw := (importCom_code_warning desc data entries (by omega)).mpr (Or.inr hd)
    omega

/-- With result code 0 the graph with resolved references tiles the whole buffer. -/
theorem tiles_of_code_zero (desc : Descriptor) (data : List Nat)
    (entries : List (Nat × SType)) (h : (importCom desc data entries).code = 0) :
    Tiles desc data 0 (discoveredGraph desc data entries) := by
  obtain ⟨_, hover, hdead⟩ := importCom_code_zero desc data entries h
  refine ⟨?_, hasOverlap_false _ hover, ?_, ?_, fun _ _ _ => Nat.zero_le _, Nat.zero_le _⟩
  · unfold discoveredGraph resolveReferences
    rw [List.pairwise_map]
    exact sortSections_pairwise _
  · intro sec hsec
    unfold discoveredGraph resolveReferences at hsec
    rw [List.mem_map] at hsec
    obtain ⟨sec0, hsec0, rfl⟩ := hsec
    have hd := discover_decoded desc data entries sec0 ((mem_sortSections _ _).mp hsec0)
    exact ⟨hd.1, decoded_map_resolve desc data sec0.stype _ _ _ hd.2⟩
  · intro p _ hp
    unfold hasDeadBytes at hdead
    have := List.any_eq_false.mp hdead p (List.mem_range.mpr hp)
    simp only [Bool.not_eq_true, Bool.not_eq_false', List.any_eq_true, Bool.and_eq_true,
      decide_eq_true_eq] at this
    exact this

/-- In a graph that tiles the buffer and has no unresolved reference, every command is
written with the bytes it was decoded from. -/
theorem writeCommand_tiled (desc : Descriptor) (data : List Nat) (l : List Section)
    (hbytes : ∀ b ∈ data, b < 256)
    (htiles : Tiles desc data 0 (resolveReferences l))
    (hres : hasUnresolved (resolveReferences l) = false) :
    ∀ sec ∈ resolveReferences l, ∀ cmd ∈ sec.commands,
      writeCommand desc (resolveReferences l) sec.stype cmd.address cmd
        = (cmd.rawBytes, true) := by
  intro sec hsec cmd hcmd
  have hdec := (htiles.2.2.1 sec hsec).2
  cases hp : cmd.ptr with
  | none => simp [writeCommand, hp, Command.rawBytes]
  | some t =>
    -- the reference resolves
    have hall := allResolved_of_not_hasUnresolved _ hres sec hsec cmd hcmd (by simp [hp])
    obtain ⟨r, hr⟩ := Option.isSome_iff_exists.mp hall
    -- the description of the command and the target its field yields
    obtain ⟨d, hd1, hd2, hd3⟩ := decoded_ptr desc data sec.stype _ sec.address hdec
      cmd hcmd t hp
    have hargs : ∀ b ∈ cmd.args, b < 256 := fun b hb =>
      hbytes b (rawBytes_mem_data desc data sec.stype _ sec.address hdec cmd hcmd b hb)
    have henc := getPtrAddress_targetAddress d.addressing cmd.args
      (cmd.address + cmd.length) t.1 hargs hd3
    -- where the reference comes from
    have hsec' := hsec
    unfold resolveReferences at hsec'
    rw [List.mem_map] at hsec'
    obtain ⟨sec0, _, rfl⟩ := hsec'
    simp only [List.mem_map] at hcmd
    obtain ⟨cmd0, _, rfl⟩ := hcmd
    have hp0 : cmd0.ptr = some t := hp
    have href : findTargetCommand l t.1 t.2 = some r := by
      have hr' := hr
      unfold getSectionAndCmd at hr'
      simp only [resolveCommand, hp0, Option.some_bind] at hr'
      cases hf : findTargetCommand l t.1 t.2 with
      | none => simp [hf] at hr'
      | some r' =>
        simp only [hf] at hr'
        split at hr'
        · cases hr'
        · split at hr'
          · simp only [Option.some.injEq] at hr'
            rw [hr']
          · cases hr'
    -- the target command and its address
    obtain ⟨_, tsec, tcmd, htsec, htcmd, htaddr⟩ :=
      findTargetCommandFrom_address t.1 t.2 l 0 r.1 r.2 href
    simp only [Nat.sub_zero] at htsec
    have hgsec : (resolveReferences l)[r.1]?
        = some { tsec with commands := tsec.commands.map (resolveCommand l) } := by
      rw [resolveReferences_getElem?, htsec]
      rfl
    have hgmem : ({ tsec with commands := tsec.commands.map (resolveCommand l) } : Section)
        ∈ resolveReferences l := List.mem_iff_getElem?.mpr ⟨r.1, hgsec⟩
    have hgcmd : (tsec.commands.map (resolveCommand l))[r.2]?
        = some (resolveCommand l tcmd) := by
      rw [List.getElem?_map, htcmd]
      rfl
    have hgdec := (htiles.2.2.1 _ hgmem).2
    have haddr := decoded_address desc data tsec.stype _ tsec.address r.2
      (resolveCommand l tcmd) hgdec hgcmd
    have hne : (tsec.commands.map (resolveCommand l)) ≠ [] := by
      intro hnil
      rw [hnil] at hgcmd
      simp at hgcmd
    have hbase := tiles_base desc data _ 0 htiles r.1 _ hgsec
      (byteLength_pos_of_ne_nil _ hne)
    have hplaced : placedAddress (resolveReferences l) r = t.1 := by
      unfold placedAddress sectionBase commandOffset
      rw [hgsec]
      simp only [Nat.zero_add] at hbase
      simp only [hbase]
      have : (resolveCommand l tcmd).address = tcmd.address := rfl
      rw [← htaddr, ← this, haddr]
    simp only [writeCommand, hp, hr, hd1, hplaced, henc, Command.rawBytes]

theorem dedupLoop_length_le (fuel : Nat) (l : List Section) :
    (dedupLoop fuel l).length ≤ l.length := by
  apply dedupLoop_induction (fun l' => l'.length ≤ l.length) _ fuel l (Nat.le_refl _)
  intro l' i j a b _ _ hb _ hl
  rw [List.length_map]
  have := List.length_eraseIdx_le l' j
  omega

/-- When the deduplication removes no section it leaves the graph as it is. -/
theorem dedup_eq_of_length (l : List Section) (h : (dedup l).length = l.length) :
    dedup l = l := by
  unfold dedup at h ⊢
  cases hd : findDuplicate l with
  | none => exact dedupLoop_none _ _ hd
  | some p =>
    exfalso
    obtain ⟨i, j⟩ := p
    obtain ⟨hlen, hfuel⟩ : ∃ m, l.length = m + 1 := by
      obtain ⟨_, a, b, _, hb, _⟩ := findDuplicate_some l i j hd
      cases l with
      | nil => simp at hb
      | cons x xs => exact ⟨xs.length, rfl⟩
    rw [hfuel, dedupLoop_succ_some hlen l i j hd] at h
    have hle := dedupLoop_length_le hlen ((l.eraseIdx j).map (retargetSection j i))
    obtain ⟨_, a, b, _, hb, _⟩ := findDuplicate_some l i j hd
    have hj : j < l.length := by
      rcases Nat.lt_or_ge j l.length with hlt | hge
      · exact hlt
      · rw [List.getElem?_eq_none hge] at hb
        cases hb
    rw [List.length_map, List.length_eraseIdx_of_lt hj] at hle
    omega

/-! ## The deduplication keeps the address order -/

theorem pairwise_eraseIdx {α : Type} (r : α → α → Prop) (l : List α) (j : Nat)
    (h : l.Pairwise r) : (l.eraseIdx j).Pairwise r :=
  List.Pairwise.sublist (List.eraseIdx_sublist l j) h

theorem dedup_address_order (l : List Section)
    (h : l.Pairwise (fun a b => a.address ≤ b.address)) :
    (dedup l).Pairwise (fun a b => a.address ≤ b.address) := by
  unfold dedup
  apply dedupLoop_induction (fun l' => l'.Pairwise (fun a b => a.address ≤ b.address))
    _ _ _ h
  intro l' i j a b _ _ _ _ hl
  rw [List.pairwise_map]
  exact pairwise_eraseIdx _ l' j hl

theorem discoveredGraph_address_order (desc : Descriptor) (data : List Nat)
    (entries : List (Nat × SType)) :
    (discoveredGraph desc data entries).Pairwise (fun a b => a.address ≤ b.address) := by
  unfold discoveredGraph resolveReferences
  rw [List.pairwise_map]
  exact sortSections_pairwise _

/-! ## Examples of the disassembler model -/

/-- The deduplication at work on `sharedTrackData`: the discovery finds four sections, the
two track sections are identical, the returned graph has three sections, and the result is
clean. -/
theorem sharedTrack_example :
    (discover exampleDescriptor sharedTrackData [(0, SType.seqHdr)]).sections.length = 4 ∧
    (importCom exampleDescriptor sharedTrackData [(0, SType.seqHdr)]).sections.length = 3 ∧
    (importCom exampleDescriptor sharedTrackData [(0, SType.seqHdr)]).code = 0 := by
  decide

/-- The result codes at work. Warnings (code 1): the loop closure of `selfLoopData` and of
`relativeLoopData`, the dead byte of `deadByteData`. Fatal errors (code 2): the call of
`selfCallData` to its own section, which is still on the active call stack; the illegal
opcode of `illegalOpcodeData`; the reference of `intoCommandData`, which lands inside the
header at no command and does not resolve; the overlapping sections of `straddleData`; the
section escape of `escapeData`, whose second target lies between two sections. With address
7 among the known entries, `escapeData` has no section escape, only a dead byte. -/
theorem resultCode_examples :
    (importCom exampleDescriptor selfLoopData [(0, SType.seqHdr)]).code = 1 ∧
    (importCom exampleDescriptor relativeLoopData [(0, SType.seqHdr)]).code = 1 ∧
    (importCom exampleDescriptor deadByteData [(0, SType.seqHdr)]).code = 1 ∧
    (discover exampleDescriptor selfCallData [(0, SType.seqHdr)]).recursion = true ∧
    (importCom exampleDescriptor selfCallData [(0, SType.seqHdr)]).code = 2 ∧
    (importCom exampleDescriptor illegalOpcodeData [(0, SType.seqHdr)]).code = 2 ∧
    hasUnresolved (discoveredGraph exampleDescriptor intoCommandData [(0, SType.seqHdr)])
      = true ∧
    (importCom exampleDescriptor intoCommandData [(0, SType.seqHdr)]).code = 2 ∧
    hasOverlap (discoveredGraph exampleDescriptor straddleData straddleEntries) = true ∧
    (importCom exampleDescriptor straddleData straddleEntries).code = 2 ∧
    (discover exampleDescriptor escapeData [(0, SType.seqHdr)]).escape = true ∧
    (importCom exampleDescriptor escapeData [(0, SType.seqHdr)]).code = 2 ∧
    (importCom exampleDescriptor escapeData [(0, SType.seqHdr), (7, SType.seqHdr)]).code
      = 1 := by
  decide

/-- The scenario of the specification: the channel header at address `0x00` with its single
reference to address `0x10`, and the 3-byte section at `0x10`, are disassembled into a graph
with 2 sections and 1 reference edge, with result code 0, and the graph is assembled into
the same bytes. -/
theorem scenario_example :
    (importCom exampleDescriptor scenarioData [(0, SType.chnHdr)]).code = 0 ∧
    (importCom exampleDescriptor scenarioData [(0, SType.chnHdr)]).sections.length = 2 ∧
    (((importCom exampleDescriptor scenarioData [(0, SType.chnHdr)]).sections.flatMap
        Section.commands).filter (fun c => c.ref.isSome)).length = 1 ∧
    exportCom exampleDescriptor
        (importCom exampleDescriptor scenarioData [(0, SType.chnHdr)]).sections
      = { code := 0, data := scenarioData } := by
  decide

/-- The bytes between two sections are dead bytes: in `scenarioGapData` the header ends at
address 4, the section starts at address 16, and the bytes between them belong to no
section, which is a warning (result code 1). -/
theorem scenarioGap_example :
    (importCom exampleDescriptor scenarioGapData [(0, SType.chnHdr)]).sections.length = 2 ∧
    hasDeadBytes scenarioGapData
      (discoveredGraph exampleDescriptor scenarioGapData [(0, SType.chnHdr)]) = true ∧
    (importCom exampleDescriptor scenarioGapData [(0, SType.chnHdr)]).code = 1 := by
  decide

/-- In `illegalOpcodeData` two legal commands lead from address 0 to address 4. -/
theorem illegalOpcodeData_run :
    LegalRun exampleDescriptor illegalOpcodeData SType.seqHdr 2 0 4 :=
  ⟨221, plainCommand 1 false, by decide, by decide, rfl,
    ⟨221, plainCommand 1 false, by decide, by decide, rfl, rfl⟩⟩

/-! ## Claims about the disassembler and the assembler -/

/-- C1: binary round trip. For every buffer of bytes for which `importCom` returns result
code 0, `exportCom` applied to the graph before the merge pass of the disassembler (the
deduplication) returns result code 0 and a buffer identical to the given one; and when the
merge pass has removed no section, so that no merge is applied, `exportCom` applied to the
graph that `importCom` returns gives result code 0 and a buffer identical to the given
one. -/
theorem C1_round_trip (desc : Descriptor) (data : List Nat) (entries : List (Nat × SType))
    (hbytes : ∀ b ∈ data, b < 256)
    (hcode : (importCom desc data entries).code = 0) :
    exportCom desc (discoveredGraph desc data entries) = { code := 0, data := data } ∧
    ((importCom desc data entries).sections.length
        = (discover desc data entries).sections.length →
      exportCom desc (importCom desc data entries).sections
        = { code := 0, data := data }) := by
  have htiles := tiles_of_code_zero desc data entries hcode
  have hres := (importCom_code_zero desc data entries hcode).1
  have hwrite := tiles_write desc data _ _ 0 htiles
    (writeCommand_tiled desc data _ hbytes htiles hres)
  have hexport : exportCom desc (discoveredGraph desc data entries)
      = { code := 0, data := data } := by
    unfold exportCom
    simp only [hwrite, List.drop_zero, ↓reduceIte]
  refine ⟨hexport, ?_⟩
  intro hmerge
  have hlen : (dedup (discoveredGraph desc data entries)).length
      = (discoveredGraph desc data entries).length := by
    have h1 : (importCom desc data entries).sections
        = dedup (discoveredGraph desc data entries) :=
      rfl
    rw [← h1, hmerge]
    simp [resolveReferences, sortSections, List.length_insertionSort]
  have hgraph : (importCom desc data entries).sections
      = discoveredGraph desc data entries :=
    dedup_eq_of_length _ hlen
  rw [hgraph]
  exact hexport

/-- C1, witness: `relativeJumpData`, which holds absolute references and a relative jump,
gets result code 0 without a merge, and comes back byte for byte. -/
theorem C1_round_trip_witness :
    (∀ b ∈ relativeJumpData, b < 256) ∧
    (importCom exampleDescriptor relativeJumpData [(0, SType.seqHdr)]).code = 0 ∧
    (importCom exampleDescriptor relativeJumpData [(0, SType.seqHdr)]).sections.length
      = (discover exampleDescriptor relativeJumpData [(0, SType.seqHdr)]).sections.length ∧
    exportCom exampleDescriptor
      (importCom exampleDescriptor relativeJumpData [(0, SType.seqHdr)]).sections
      = { code := 0, data := relativeJumpData } :=
  ⟨by decide, by decide, by decide,
    (C1_round_trip exampleDescriptor relativeJumpData [(0, SType.seqHdr)] (by decide)
      (by decide)).2 (by decide)⟩

/-- C2: the result code of `importCom` is 0, 1 or 2 for every buffer (`importCom` is a total
function: an error is the returned code), and it is at least 2 whenever the buffer has one
of these fatal structural errors. Illegal opcode: from a known entry address, or from the
start of a discovered section, a run of commands that are legal for the section kind and no
terminators leads to a byte that is no opcode of the section kind, with no start of a
discovered section on the way (the run may be empty: the entry or section start itself holds
the illegal byte); or a command of a discovered section that is no terminator and does not
end at the start of a section is followed by such a byte. Unresolved reference: a command of
a discovered section has a candidate target that is the address of no command of a
discovered section of the target kind. Overlapping sections: the byte ranges of two
discovered sections intersect. Visit on the active call stack: a command of a discovered
section that is no terminator has the start of its own section as target. -/
theorem C2_importCom_result_code (desc : Descriptor) (data : List Nat)
    (entries : List (Nat × SType)) :
    ((importCom desc data entries).code = 0 ∨ (importCom desc data entries).code = 1
      ∨ (importCom desc data entries).code = 2) ∧
    (∀ e ∈ entries, ∀ n b x, LegalRun desc data e.2 n e.1 b →
      (∀ s ∈ (discover desc data entries).sections, ¬ (e.1 < s.address ∧ s.address ≤ b)) →
      data[b]? = some x → desc.getDescription x e.2 = none →
      2 ≤ (importCom desc data entries).code) ∧
    (∀ sec ∈ (discover desc data entries).sections, ∀ n b x,
      LegalRun desc data sec.stype n sec.address b →
      (∀ s ∈ (discover desc data entries).sections,
        ¬ (sec.address < s.address ∧ s.address ≤ b)) →
      data[b]? = some x → desc.getDescription x sec.stype = none →
      2 ≤ (importCom desc data entries).code) ∧
    (∀ sec ∈ (discover desc data entries).sections, ∀ cmd ∈ sec.commands, ∀ d b,
      desc.getDescription cmd.firstByte sec.stype = some d → d.terminator = false →
      (∀ s ∈ (discover desc data entries).sections, s.address ≠ cmd.address + cmd.length) →
      data[cmd.address + cmd.length]? = some b → desc.getDescription b sec.stype = none →
      2 ≤ (importCom desc data entries).code) ∧
    (∀ sec ∈ (discover desc data entries).sections, ∀ cmd ∈ sec.commands, ∀ t,
      cmd.ptr = some t →
      (∀ s ∈ (discover desc data entries).sections, s.stype = t.2 →
        ∀ c ∈ s.commands, c.address ≠ t.1) →
      2 ≤ (importCom desc data entries).code) ∧
    (∀ (i j : Nat) (a b : Section), i ≠ j →
      (discover desc data entries).sections[i]? = some a →
      (discover desc data entries).sections[j]? = some b →
      a.address < b.addressEnd → b.address < a.addressEnd →
      2 ≤ (importCom desc data entries).code) ∧
    (∀ sec ∈ (discover desc data entries).sections, ∀ cmd ∈ sec.commands, ∀ d,
      desc.getDescription cmd.firstByte sec.stype = some d → d.terminator = false →
      cmd.ptr = some (sec.address, sec.stype) →
      2 ≤ (importCom desc data entries).code) := by
  refine ⟨?_, ?_, ?_, ?_, ?_, ?_, ?_⟩
  · have := importCom_code_le desc data entries
    omega
  · intro e he n b x hrun hbound hb hillegal
    have hlt : e.1 < data.length := by
      have hle := legalRun_le desc data e.2 n e.1 b hrun
      by_contra hge
      rw [List.getElem?_eq_none (by omega)] at hb
      cases hb
    obtain ⟨sec, hsec, haddr, hstype⟩ := discover_entries_section desc data entries e he hlt
    rw [← haddr, ← hstype] at hrun
    rw [← haddr] at hbound
    rw [← hstype] at hillegal
    exact importCom_illegal_run desc data entries sec n b x hsec hrun hbound hb hillegal
  · intro sec hsec n b x hrun hbound hb hillegal
    exact importCom_illegal_run desc data entries sec n b x hsec hrun hbound hb hillegal
  · intro sec hsec cmd hcmd d b hd hterm hbound hb hillegal
    exact importCom_illegal_after desc data entries sec cmd d b hsec hcmd hd hterm hbound hb
      hillegal
  · intro sec hsec cmd hcmd t hptr hno
    rw [importCom_code_fatal]
    exact Or.inr (Or.inr (Or.inr (Or.inr (Or.inl
      (hasUnresolved_of_no_target desc data entries sec cmd t hsec hcmd hptr hno)))))
  · intro i j a b hij ha hb h1 h2
    rw [importCom_code_fatal]
    exact Or.inr (Or.inr (Or.inr (Or.inr (Or.inr
      (hasOverlap_of_intersect desc data entries i j a b hij ha hb h1 h2)))))
  · intro sec hsec cmd hcmd d hd hterm hptr
    rw [importCom_code_fatal]
    exact Or.inr (Or.inr (Or.inl
      (discover_selfCall desc data entries sec hsec ⟨cmd, hcmd, d, hd, hterm, hptr⟩)))

/-- C2, witness: the four kinds of fatal error on sample buffers. In `illegalOpcodeData` two
legal commands lead from the entry to the byte 254 at address 4, which is no opcode, and the
second command of the header is followed by that byte; in `intoCommandData` the target of
the call is the address of no command; in `straddleData` the byte ranges of the two track
sections intersect; in `selfCallData` the header calls its own start. Each result code is at
least 2 (it is 2). -/
theorem C2_importCom_result_code_witness :
    (LegalRun exampleDescriptor illegalOpcodeData SType.seqHdr 2 0 4 ∧
      illegalOpcodeData[4]? = some 254 ∧
      exampleDescriptor.getDescription 254 SType.seqHdr = none ∧
      2 ≤ (importCom exampleDescriptor illegalOpcodeData [(0, SType.seqHdr)]).code) ∧
    (illegalOpcodeSection
        ∈ (discover exampleDescriptor illegalOpcodeData [(0, SType.seqHdr)]).sections ∧
      illegalOpcodeData[4]? = some 254 ∧
      exampleDescriptor.getDescription 254 SType.seqHdr = none ∧
      2 ≤ (importCom exampleDescriptor illegalOpcodeData [(0, SType.seqHdr)]).code ∧
      (importCom exampleDescriptor illegalOpcodeData [(0, SType.seqHdr)]).code = 2) ∧
    (intoCommandSection
        ∈ (discover exampleDescriptor intoCommandData [(0, SType.seqHdr)]).sections ∧
      intoCommandCall.ptr = some (4, SType.seqHdr) ∧
      2 ≤ (importCom exampleDescriptor intoCommandData [(0, SType.seqHdr)]).code ∧
      (importCom exampleDescriptor intoCommandData [(0, SType.seqHdr)]).code = 2) ∧
    ((discover exampleDescriptor straddleData straddleEntries).sections[1]?
        = some straddleFirst ∧
      (discover exampleDescriptor straddleData straddleEntries).sections[2]?
        = some straddleSecond ∧
      straddleFirst.address < straddleSecond.addressEnd ∧
      straddleSecond.address < straddleFirst.addressEnd ∧
      2 ≤ (importCom exampleDescriptor straddleData straddleEntries).code ∧
      (importCom exampleDescriptor straddleData straddleEntries).code = 2) ∧
    (selfCallSection
        ∈ (discover exampleDescriptor selfCallData [(0, SType.seqHdr)]).sections ∧
      selfCallCommand.ptr = some (selfCallSection.address, selfCallSection.stype) ∧
      2 ≤ (importCom exampleDescriptor selfCallData [(0, SType.seqHdr)]).code ∧
      (importCom exampleDescriptor selfCallData [(0, SType.seqHdr)]).code = 2) :=
  ⟨⟨illegalOpcodeData_run, by decide, by decide,
      (C2_importCom_result_code exampleDescriptor illegalOpcodeData
        [(0, SType.seqHdr)]).2.1 (0, SType.seqHdr) (by decide) 2 4 254
        illegalOpcodeData_run (by decide) (by decide) (by decide)⟩,
    ⟨by decide, by decide, by decide,
      (C2_importCom_result_code exampleDescriptor illegalOpcodeData
        [(0, SType.seqHdr)]).2.2.2.1 illegalOpcodeSection (by decide)
        { address := 2, firstByte := 221, args := [6], ptr := none, ref := none } (by decide)
        (plainCommand 1 false) 254 (by decide) (by decide) (by decide) (by decide)
        (by decide),
      by decide⟩,
    ⟨by decide, by decide,
      (C2_importCom_result_code exampleDescriptor intoCommandData
        [(0, SType.seqHdr)]).2.2.2.2.1 intoCommandSection (by decide) intoCommandCall
        (by decide) (4, SType.seqHdr) (by decide) (by decide),
      by decide⟩,
    ⟨by decide, by decide, by decide, by decide,
      (C2_importCom_result_code exampleDescriptor straddleData
        straddleEntries).2.2.2.2.2.1 1 2 straddleFirst straddleSecond (by decide)
        (by decide) (by decide) (by decide) (by decide),
      by decide⟩,
    ⟨by decide, by decide,
      (C2_importCom_result_code exampleDescriptor selfCallData
        [(0, SType.seqHdr)]).2.2.2.2.2.2 selfCallSection (by decide) selfCallCommand
        (by decide)
        { argBytes := 2, terminator := false, targetSType := some SType.seqHdr,
          addressing := AddressingMode.absolute }
        (by decide) (by decide) (by decide),
      by decide⟩⟩

/-- C3: in every graph that `importCom` returns with a result code below 2, every command
that holds a reference (a branch/call/reference command) resolves: `getSectionAndCmd`
succeeds for it, and the section and the command it denotes are present in the graph. -/
theorem C3_references_resolve (desc : Descriptor) (data : List Nat)
    (entries : List (Nat × SType)) (hcode : (importCom desc data entries).code < 2) :
    ∀ sec ∈ (importCom desc data entries).sections, ∀ cmd ∈ sec.commands,
      cmd.ptr.isSome = true →
      ∃ r target, getSectionAndCmd (importCom desc data entries).sections cmd = some r ∧
        (importCom desc data entries).sections[r.1]? = some target ∧
        r.2 < target.commands.length := by
  have hnot : ¬ 2 ≤ (importCom desc data entries).code := by omega
  rw [importCom_code_fatal] at hnot
  have hun : hasUnresolved (discoveredGraph desc data entries)
      = false := by
    cases h : hasUnresolved (discoveredGraph desc data entries) with
    | false => rfl
    | true => exact absurd (Or.inr (Or.inr (Or.inr (Or.inr (Or.inl h))))) hnot
  have hall := allResolved_dedup _ (allResolved_of_not_hasUnresolved _ hun)
  intro sec hsec cmd hcmd hptr
  have hres := hall sec hsec cmd hcmd hptr
  rw [getSectionAndCmd_isSome_iff] at hres
  obtain ⟨r, hr, target, htarget, hlen⟩ := hres
  refine ⟨r, target, ?_, htarget, hlen⟩
  have htarget' : (importCom desc data entries).sections[r.1]? = some target := htarget
  unfold getSectionAndCmd
  simp [hr, htarget', hlen]

/-- C3, witness: `sharedTrackData` is imported with a result code below 2, and the second
pointer command of its channel header resolves. -/
theorem C3_references_resolve_witness :
    (importCom exampleDescriptor sharedTrackData [(0, SType.seqHdr)]).code < 2 ∧
    sharedTrackChannel
      ∈ (importCom exampleDescriptor sharedTrackData [(0, SType.seqHdr)]).sections ∧
    sharedTrackCommand ∈ sharedTrackChannel.commands ∧
    sharedTrackCommand.ptr.isSome = true ∧
    ∃ r target,
      getSectionAndCmd (importCom exampleDescriptor sharedTrackData [(0, SType.seqHdr)]).sections
        sharedTrackCommand = some r ∧
      (importCom exampleDescriptor sharedTrackData [(0, SType.seqHdr)]).sections[r.1]?
        = some target ∧
      r.2 < target.commands.length :=
  ⟨by decide, by decide, by decide, by decide,
    C3_references_resolve exampleDescriptor sharedTrackData [(0, SType.seqHdr)] (by decide)
      sharedTrackChannel (by decide) sharedTrackCommand (by decide) (by decide)⟩

/-- C5: after `importCom` no two sections of the graph have the same kind and the same
content hash; every section that the discovery found has a retained section of its kind and
content hash in the graph; seen through the keys (kind and content hash) of the sections,
the graph is the discovered graph with only the first section of every key kept: the
retained sections have their commands, and every Reference points to the section of the
same key as before, at the same command index, which is the one retained section of that
key; and the retained sections are still in address order. -/
theorem C5_importCom_deduplicates (desc : Descriptor) (data : List Nat)
    (entries : List (Nat × SType)) :
    List.Pairwise (fun a b => sameContent a b = false) (importCom desc data entries).sections ∧
    (∀ sec ∈ discoveredGraph desc data entries,
      ∃ kept ∈ (importCom desc data entries).sections, sameContent sec kept = true) ∧
    graphView (importCom desc data entries).sections
      = keepFirst [] (graphView (discoveredGraph desc data entries)) ∧
    List.Pairwise (fun a b => a.address ≤ b.address) (importCom desc data entries).sections :=
  ⟨findDuplicate_none _ (dedupLoop_no_duplicate _ _ (Nat.le_refl _)),
    retained_dedup _,
    graphView_dedupLoop _ _ (Nat.le_refl _),
    dedup_address_order _ (discoveredGraph_address_order desc data entries)⟩

/-- C5, witness: the second track section of `sharedTrackData` is found by the discovery,
and the graph returned has a section of its kind and content hash. -/
theorem C5_importCom_deduplicates_witness :
    sharedTrackDuplicate ∈ discoveredGraph exampleDescriptor sharedTrackData
      [(0, SType.seqHdr)] ∧
    ∃ kept ∈ (importCom exampleDescriptor sharedTrackData [(0, SType.seqHdr)]).sections,
      sameContent sharedTrackDuplicate kept = true :=
  ⟨by decide,
    (C5_importCom_deduplicates exampleDescriptor sharedTrackData [(0, SType.seqHdr)]).2.1
      sharedTrackDuplicate (by decide)⟩

/-! ## Claims about `SectionSorter::compareElements` -/

/-- C7, as stated, fails: for two sections that both have address 5 the asserted condition
is violated, yet in a build with assertions compiled out nothing is reported and the call
returns the ordinary integer 0; so it is not true that every violation is reported in every
build. -/
theorem C7_counterexample :
    SectionSorter.assertedCondition (SectionSorter.readAddress (sectionAt 5))
      (SectionSorter.readAddress (sectionAt 5)) = false ∧
    SectionSorter.compareElementsRun false (sectionAt 5) (sectionAt 5)
      = { assertionFired := false, value := 0 } ∧
    ¬ (∀ (assertionsEnabled : Bool) (first second : ValueTree),
        SectionSorter.assertedCondition (SectionSorter.readAddress first)
          (SectionSorter.readAddress second) = false →
        (SectionSorter.compareElementsRun assertionsEnabled first second).assertionFired
          = true) := by
  refine ⟨by decide, by decide, ?_⟩
  intro h
  have h5 := h false (sectionAt 5) (sectionAt 5) (by decide)
  revert h5
  decide

/-- C7, amended: when the comparator is applied to two sections with the same address, or to
a section whose address is absent or negative, the violation is signalled by the debug
assertion only: it fires in a build with assertions enabled, and in a build with
assertions compiled out nothing is reported; in both builds the call returns the ordinary
32-bit difference of the two addresses read. -/
theorem C7_assertion_only (first second : ValueTree)
    (hviol : SectionSorter.assertedCondition (SectionSorter.readAddress first)
      (SectionSorter.readAddress second) = false) :
    (SectionSorter.compareElementsRun true first second).assertionFired = true ∧
    (SectionSorter.compareElementsRun false first second).assertionFired = false ∧
    ∀ assertionsEnabled : Bool,
      (SectionSorter.compareElementsRun assertionsEnabled first second).value
        = wrapInt32 (SectionSorter.readAddress first - SectionSorter.readAddress second) := by
  refine ⟨?_, ?_, ?_⟩
  · simp [SectionSorter.compareElementsRun, SectionSorter.jassert, hviol]
  · simp [SectionSorter.compareElementsRun, SectionSorter.jassert]
  · intro dbg
    rfl

/-- C7, witness: a section without address compared with the section at address 16. -/
theorem C7_assertion_only_witness :
    SectionSorter.assertedCondition (SectionSorter.readAddress sectionNoAddress)
      (SectionSorter.readAddress (sectionAt 16)) = false ∧
    (SectionSorter.compareElementsRun true sectionNoAddress (sectionAt 16)).assertionFired
      = true ∧
    (SectionSorter.compareElementsRun false sectionNoAddress (sectionAt 16)).assertionFired
      = false ∧
    (SectionSorter.compareElementsRun false sectionNoAddress (sectionAt 16)).value = -17 :=
  ⟨by decide, (C7_assertion_only sectionNoAddress (sectionAt 16) (by decide)).1,
    (C7_assertion_only sectionNoAddress (sectionAt 16) (by decide)).2.1, by decide⟩

/-- C8: for two sections whose addresses satisfy the asserted condition (distinct and both
non-negative), `compareElements` returns exactly `address(first) - address(second)` (the
32-bit subtraction does not overflow); the result is negative iff the first address is the
smaller, positive iff it is the larger, and it is never zero. -/
theorem C8_compareElements_orders_by_address (first second : ValueTree)
    (hpre : SectionSorter.assertedCondition (SectionSorter.readAddress first)
      (SectionSorter.readAddress second) = true) :
    SectionSorter.compareElements first second
      = SectionSorter.readAddress first - SectionSorter.readAddress second ∧
    (SectionSorter.compareElements first second < 0 ↔
      SectionSorter.readAddress first < SectionSorter.readAddress second) ∧
    (SectionSorter.compareElements first second > 0 ↔
      SectionSorter.readAddress first > SectionSorter.readAddress second) ∧
    SectionSorter.compareElements first second ≠ 0 := by
  simp only [SectionSorter.assertedCondition, Bool.and_eq_true, bne_iff_ne, ne_eq,
    decide_eq_true_eq] at hpre
  obtain ⟨⟨hne, h1⟩, h2⟩ := hpre
  have hex := compareElements_exact first second h1 h2
  rw [hex]
  refine ⟨rfl, ?_, ?_, ?_⟩ <;> omega

/-- C8, witness: the sections at addresses 16 and `2^31 - 1`. -/
theorem C8_compareElements_orders_by_address_witness :
    SectionSorter.assertedCondition (SectionSorter.readAddress (sectionAt 16))
      (SectionSorter.readAddress (sectionAt 2147483647)) = true ∧
    SectionSorter.compareElements (sectionAt 16) (sectionAt 2147483647) = -2147483631 ∧
    SectionSorter.compareElements (sectionAt 16) (sectionAt 2147483647) < 0 :=
  ⟨by decide, by decide,
    (C8_compareElements_orders_by_address (sectionAt 16) (sectionAt 2147483647)
      (by decide)).2.1.mpr (by decide)⟩

/-- C9: on sections with non-negative addresses `compareElements` is antisymmetric
(`compareElements a b = - compareElements b a`), gives 0 on equal arguments, and its
"negative" relation is transitive. -/
theorem C9_compareElements_strict_order (a b c : ValueTree)
    (ha : 0 ≤ SectionSorter.readAddress a) (hb : 0 ≤ SectionSorter.readAddress b)
    (hc : 0 ≤ SectionSorter.readAddress c) :
    SectionSorter.compareElements a b = - SectionSorter.compareElements b a ∧
    SectionSorter.compareElements a a = 0 ∧
    (SectionSorter.compareElements a b < 0 → SectionSorter.compareElements b c < 0 →
      SectionSorter.compareElements a c < 0) := by
  rw [compareElements_exact a b ha hb, compareElements_exact b a hb ha,
    compareElements_exact a a ha ha, compareElements_exact b c hb hc,
    compareElements_exact a c ha hc]
  refine ⟨by omega, by omega, ?_⟩
  intro hab hbc
  omega

/-- C9, witness: the sections at addresses 0, 16 and `2^31 - 1`. -/
theorem C9_compareElements_strict_order_witness :
    0 ≤ SectionSorter.readAddress (sectionAt 0) ∧
    0 ≤ SectionSorter.readAddress (sectionAt 16) ∧
    0 ≤ SectionSorter.readAddress (sectionAt 2147483647) ∧
    SectionSorter.compareElements (sectionAt 0) (sectionAt 16)
      = - SectionSorter.compareElements (sectionAt 16) (sectionAt 0) ∧
    SectionSorter.compareElements (sectionAt 0) (sectionAt 2147483647) < 0 :=
  ⟨by decide, by decide, by decide,
    (C9_compareElements_strict_order (sectionAt 0) (sectionAt 16) (sectionAt 2147483647)
      (by decide) (by decide) (by decide)).1,
    (C9_compareElements_strict_order (sectionAt 0) (sectionAt 16) (sectionAt 2147483647)
      (by decide) (by decide) (by decide)).2.2 (by decide) (by decide)⟩

/-- C10, as stated, fails at the largest address: for the section at address `2^31 - 1`,
`compareElements(s, missing)` is `(2^31 - 1) - (-1)`, which wraps to `-2^31` and is not
positive. -/
theorem C10_counterexample :
    sectionNoAddress.hasProperty Identifier.idAddress = false ∧
    0 ≤ SectionSorter.readAddress (sectionAt 2147483647) ∧
    SectionSorter.readAddress (sectionAt 2147483647) ≤ 2147483647 ∧
    SectionSorter.compareElements (sectionAt 2147483647) sectionNoAddress = -2147483648 ∧
    ¬ (SectionSorter.compareElements (sectionAt 2147483647) sectionNoAddress > 0) := by
  decide

/-- C10, amended: a section without an address property is read as address `-1`; for every
section `s` with `0 ≤ address(s) ≤ 2^31 - 1`, `compareElements(missing, s) < 0`; and for
every `s` with `0 ≤ address(s) ≤ 2^31 - 2`, `compareElements(s, missing) > 0`. -/
theorem C10_missing_address_sorts_first (missing s : ValueTree)
    (hmissing : missing.hasProperty Identifier.idAddress = false)
    (hs : 0 ≤ SectionSorter.readAddress s) :
    SectionSorter.readAddress missing = -1 ∧
    SectionSorter.compareElements missing s < 0 ∧
    (SectionSorter.readAddress s ≤ 2147483646 →
      SectionSorter.compareElements s missing > 0) := by
  have hm := readAddress_of_no_property missing hmissing
  have hu := readAddress_upper s
  refine ⟨hm, ?_, ?_⟩
  · rw [compareElements_eq, hm, wrapInt32_of_inRange _ (by omega) (by omega)]
    omega
  · intro hle
    rw [compareElements_eq, hm, wrapInt32_of_inRange _ (by omega) (by omega)]
    omega

/-- C10, witness: a section without address and the section at address `2^31 - 2`. -/
theorem C10_missing_address_sorts_first_witness :
    sectionNoAddress.hasProperty Identifier.idAddress = false ∧
    0 ≤ SectionSorter.readAddress (sectionAt 2147483646) ∧
    SectionSorter.compareElements sectionNoAddress (sectionAt 2147483646) < 0 ∧
    SectionSorter.compareElements (sectionAt 2147483646) sectionNoAddress > 0 :=
  ⟨by decide, by decide,
    (C10_missing_address_sorts_first sectionNoAddress (sectionAt 2147483646)
      (by decide) (by decide)).2.1,
    (C10_missing_address_sorts_first sectionNoAddress (sectionAt 2147483646)
      (by decide) (by decide)).2.2 (by decide)⟩

end SeqFile
